import Mathlib

/-!
# Parallel image-processing pipeline: the distributed (MPI) variant

A shallow embedding of `src/mpi/main.cpp`: the row partition computed in `main`,
the collective data movement (`MPI_Scatterv`, `MPI_Gatherv`), the Sobel kernel
`applySobelKernel` and the threshold kernel `applyThresholdKernel`, the timing
reductions, and the order in which each participant takes the steps of `main`.
The Sobel stage of `src/serial/main.cpp` and `src/openmp/main.cpp` is embedded
for comparison with the kernel.

Modelling conventions.

* A sample (`uchar`) is a `Fin 256`; a buffer is a `List uchar`, row-major.
* The C++ `int` quantities that are sizes, counts and indices (`imgRows`,
  `imgCols`, `size`, `rank`, loop counters, table entries) are natural numbers:
  they are non-negative in every run, and arithmetic is taken without
  overflow (signed overflow is undefined behaviour in C++, so the model speaks
  of runs in which `imgRows * imgCols` fits an `int`).
* The convolution sums are signed integers (`Int`), as in the source.
* `static_cast<int>(std::sqrt(x))` for an integer `0 ≤ x` is `Nat.sqrt x`: the
  double square root is correctly rounded and `x ≤ 2 * 1020 ^ 2` is exactly
  representable, so truncating it gives the integer square root.
* Reads and writes outside a buffer are undefined behaviour in C++; the
  embedding is total: such a read gives `0` and such a write is dropped.
* The two MPI collectives are modelled by what the MPI standard says they
  move: `scatterv` copies `sendcounts[rank]` elements starting at
  `displs[rank]` of the root's send buffer into the receive buffer of `rank`,
  `gatherv` copies each participant's block into the root's receive buffer at
  `displs[rank]`.
-/

namespace MpiPipeline

/-- An unsigned 8-bit sample. -/
abbrev uchar := Fin 256

/-! ## Buffers -/

/-- Total read `buffer[idx]` with a signed index: `0` outside the buffer. -/
def readAt (buffer : List uchar) (idx : Int) : uchar :=
  if 0 ≤ idx then buffer.getD idx.toNat 0 else 0

/-- Copy `block` into `buf` starting at offset `off`, element by element. -/
def writeAt (buf : List uchar) (off : Nat) : List uchar → List uchar
  | [] => buf
  | b :: bs => writeAt (buf.set off b) (off + 1) bs

/-! ## applySobelKernel -/

/-- The horizontal Sobel weights `Gx`. -/
def Gx : List (List Int) := [[-1, 0, 1], [-2, 0, 2], [-1, 0, 1]]

/-- The vertical Sobel weights `Gy`. -/
def Gy : List (List Int) := [[-1, -2, -1], [0, 0, 0], [1, 2, 1]]

/-- The entry `G[a][b]` of a weight table, for signed `a`, `b`. -/
def kernelAt (G : List (List Int)) (a b : Int) : Int :=
  (G.getD a.toNat []).getD b.toNat 0

/-- The index `(i + k) * cols + (j + l)` read by the convolution. -/
def readIndex (cols i j : Nat) (k l : Int) : Int :=
  ((i : Int) + k) * (cols : Int) + ((j : Int) + l)

/-- One iteration of the innermost loop: read `val`, update `(sumX, sumY)`. -/
def convolveStep (inputBuffer : List uchar) (cols i j : Nat) (k : Int)
    (acc : Int × Int) (l : Int) : Int × Int :=
  let val : Int := ((readAt inputBuffer (readIndex cols i j k l)).val : Int)
  (acc.1 + val * kernelAt Gx (k + 1) (l + 1), acc.2 + val * kernelAt Gy (k + 1) (l + 1))

/-- The 3x3 convolution loops of `applySobelKernel`: the pair `(sumX, sumY)`
after `k` and `l` have run over `-1, 0, 1`. -/
def convolve (inputBuffer : List uchar) (cols i j : Nat) : Int × Int :=
  [-1, 0, 1].foldl
    (fun acc k => [-1, 0, 1].foldl (convolveStep inputBuffer cols i j k) acc) (0, 0)

/-- The value of `static_cast<int>(std::sqrt(sumX * sumX + sumY * sumY))`. -/
def magnitudeOf (sumX sumY : Int) : Nat :=
  Nat.sqrt (sumX * sumX + sumY * sumY).toNat

/-- The stored sample `(magnitude > 255) ? 255 : static_cast<uchar>(magnitude)`. -/
def clampToUchar (magnitude : Nat) : uchar :=
  if magnitude > 255 then 255 else Fin.ofNat magnitude

/-- The body of the `j` loop of `applySobelKernel` at position `(i, j)`. -/
def sobelStep (inputBuffer : List uchar) (rows cols i : Nat)
    (outputBuffer : List uchar) (j : Nat) : List uchar :=
  if i = 0 ∨ (i : Int) = (rows : Int) - 1 ∨ j = 0 ∨ (j : Int) = (cols : Int) - 1 then
    outputBuffer.set (i * cols + j) 0
  else
    let s := convolve inputBuffer cols i j
    outputBuffer.set (i * cols + j) (clampToUchar (magnitudeOf s.1 s.2))

/-- The function `applySobelKernel(inputBuffer, outputBuffer, rows, cols)`: the
content of `outputBuffer` when it returns. -/
def applySobelKernel (inputBuffer outputBuffer : List uchar) (rows cols : Nat) :
    List uchar :=
  (List.range rows).foldl
    (fun out i => (List.range cols).foldl (sobelStep inputBuffer rows cols i) out)
    outputBuffer

/-- The sample `applySobelKernel` stores at position `(i, j)`: `0` on the border
of the block, the clamped magnitude elsewhere. -/
def sobelPixel (inputBuffer : List uchar) (rows cols i j : Nat) : uchar :=
  if i = 0 ∨ (i : Int) = (rows : Int) - 1 ∨ j = 0 ∨ (j : Int) = (cols : Int) - 1 then 0
  else clampToUchar
    (magnitudeOf (convolve inputBuffer cols i j).1 (convolve inputBuffer cols i j).2)

/-- The sample at row `i + di`, column `j + dj` of a row-major block of width
`cols`, as a signed integer. -/
def neighbour (inputBuffer : List uchar) (cols i j : Nat) (di dj : Int) : Int :=
  ((readAt inputBuffer (((i : Int) + di) * (cols : Int) + ((j : Int) + dj))).val : Int)

/-- The horizontal sum `Sx(i, j)`: the 3x3 neighbourhood weighted by
`{{-1, 0, 1}, {-2, 0, 2}, {-1, 0, 1}}`. -/
def Sx (inputBuffer : List uchar) (cols i j : Nat) : Int :=
  (-1) * neighbour inputBuffer cols i j (-1) (-1) + 0 * neighbour inputBuffer cols i j (-1) 0
    + 1 * neighbour inputBuffer cols i j (-1) 1
    + (-2) * neighbour inputBuffer cols i j 0 (-1) + 0 * neighbour inputBuffer cols i j 0 0
    + 2 * neighbour inputBuffer cols i j 0 1
    + (-1) * neighbour inputBuffer cols i j 1 (-1) + 0 * neighbour inputBuffer cols i j 1 0
    + 1 * neighbour inputBuffer cols i j 1 1

/-- The vertical sum `Sy(i, j)`: the 3x3 neighbourhood weighted by
`{{-1, -2, -1}, {0, 0, 0}, {1, 2, 1}}`. -/
def Sy (inputBuffer : List uchar) (cols i j : Nat) : Int :=
  (-1) * neighbour inputBuffer cols i j (-1) (-1) + (-2) * neighbour inputBuffer cols i j (-1) 0
    + (-1) * neighbour inputBuffer cols i j (-1) 1
    + 0 * neighbour inputBuffer cols i j 0 (-1) + 0 * neighbour inputBuffer cols i j 0 0
    + 0 * neighbour inputBuffer cols i j 0 1
    + 1 * neighbour inputBuffer cols i j 1 (-1) + 2 * neighbour inputBuffer cols i j 1 0
    + 1 * neighbour inputBuffer cols i j 1 1

/-! ## applyThresholdKernel -/

/-- The body of the loop of `applyThresholdKernel`. -/
def thresholdStep (threshold : Int) (buffer : List uchar) (i : Nat) : List uchar :=
  if ((buffer.getD i 0).val : Int) > threshold then buffer.set i 255 else buffer.set i 0

/-- The function `applyThresholdKernel(buffer, size, threshold)`: the content of
`buffer` when it returns. -/
def applyThresholdKernel (buffer : List uchar) (size : Nat) (threshold : Int) :
    List uchar :=
  (List.range size).foldl (thresholdStep threshold) buffer

/-- The sample `applyThresholdKernel` stores in place of a sample `v`. -/
def thresholdValue (threshold : Int) (v : uchar) : uchar :=
  if (v.val : Int) > threshold then 255 else 0

/-! ## The partition table of `main` -/

/-- The variables of the partition loop. -/
structure PartitionState where
  sendCounts : List Nat
  displacements : List Nat
  currentDisplacement : Nat
deriving DecidableEq

/-- The body of the partition loop for participant `i`. -/
def partitionStep (rowsPerProcess remainder imgCols : Nat) (st : PartitionState)
    (i : Nat) : PartitionState :=
  let r := rowsPerProcess + (if i < remainder then 1 else 0)
  let sendCounts := st.sendCounts.set i (r * imgCols)
  let displacements := st.displacements.set i st.currentDisplacement
  { sendCounts := sendCounts
    displacements := displacements
    currentDisplacement := st.currentDisplacement + sendCounts.getD i 0 }

/-- The tables `sendCounts` and `displacements` (and the final value of
`currentDisplacement`) that `main` computes from `imgRows`, `imgCols`, `size`. -/
def partitionTable (imgRows imgCols size : Nat) : PartitionState :=
  (List.range size).foldl (partitionStep (imgRows / size) (imgRows % size) imgCols)
    { sendCounts := List.replicate size 0
      displacements := List.replicate size 0
      currentDisplacement := 0 }

/-- The row count `r` the partition loop gives participant `i`. -/
def rowCount (imgRows size i : Nat) : Nat :=
  imgRows / size + (if i < imgRows % size then 1 else 0)

/-- The list of the row counts of participants `0 .. size - 1`. -/
def rowCounts (imgRows size : Nat) : List Nat :=
  (List.range size).map (rowCount imgRows size)

/-! ## The collectives -/

/-- The receive buffer of `rank` after `MPI_Scatterv`: `sendCounts[rank]`
elements of the root's `sendbuf`, from `displs[rank]` on, copied to its start. -/
def scatterv (sendbuf : List uchar) (sendCounts displs : List Nat) (rank : Nat)
    (recvbuf : List uchar) : List uchar :=
  writeAt recvbuf 0 ((sendbuf.drop (displs.getD rank 0)).take (sendCounts.getD rank 0))

/-- The root's receive buffer after `MPI_Gatherv` among `size` participants:
the first `recvCounts[i]` elements of the send buffer of each participant `i`
are copied to offset `displs[i]`. -/
def gatherv (sendbufs : Nat → List uchar) (recvbuf : List uchar)
    (recvCounts displs : List Nat) (size : Nat) : List uchar :=
  (List.range size).foldl
    (fun buf i => writeAt buf (displs.getD i 0) ((sendbufs i).take (recvCounts.getD i 0)))
    recvbuf

/-! ## The stages of `main`, per participant -/

/-- The value of `myDataSize = sendCounts[rank]`. -/
def myDataSize (imgRows imgCols size rank : Nat) : Nat :=
  (partitionTable imgRows imgCols size).sendCounts.getD rank 0

/-- The value of `myRows = sendCounts[rank] / imgCols`. -/
def myRows (imgRows imgCols size rank : Nat) : Nat :=
  (partitionTable imgRows imgCols size).sendCounts.getD rank 0 / imgCols

/-- The buffer `localBuffer` of `rank` after the scatter. -/
def localBuffer (fullImageBuffer : List uchar) (imgRows imgCols size rank : Nat) :
    List uchar :=
  scatterv fullImageBuffer (partitionTable imgRows imgCols size).sendCounts
    (partitionTable imgRows imgCols size).displacements rank
    (List.replicate (myDataSize imgRows imgCols size rank) 0)

/-- The buffer `localResult` of `rank` after `applySobelKernel`. -/
def localGradient (fullImageBuffer : List uchar) (imgRows imgCols size rank : Nat) :
    List uchar :=
  applySobelKernel (localBuffer fullImageBuffer imgRows imgCols size rank)
    (List.replicate (myDataSize imgRows imgCols size rank) 0)
    (myRows imgRows imgCols size rank) imgCols

/-- The buffer `localResult` of `rank` after `applyThresholdKernel`. -/
def localResult (fullImageBuffer : List uchar) (imgRows imgCols size rank : Nat) :
    List uchar :=
  applyThresholdKernel (localGradient fullImageBuffer imgRows imgCols size rank)
    (myDataSize imgRows imgCols size rank) 100

/-- Gather per-participant blocks into a fresh buffer of `imgRows * imgCols`
samples with the table of `main`, as the `MPI_Gatherv` call of `main` does. -/
def gatherBlocks (blocks : Nat → List uchar) (imgRows imgCols size : Nat) : List uchar :=
  gatherv blocks (List.replicate (imgRows * imgCols) 0)
    (partitionTable imgRows imgCols size).sendCounts
    (partitionTable imgRows imgCols size).displacements size

/-- The buffer `finalImageBuffer` at the coordinator when `main` has gathered. -/
def finalImageBuffer (fullImageBuffer : List uchar) (imgRows imgCols size : Nat) :
    List uchar :=
  gatherBlocks (localResult fullImageBuffer imgRows imgCols size) imgRows imgCols size

/-- The gradient blocks (`localResult` before thresholding) gathered with the
same table: the "gathered gradient output" the specification speaks of. -/
def gatheredGradient (fullImageBuffer : List uchar) (imgRows imgCols size : Nat) :
    List uchar :=
  gatherBlocks (localGradient fullImageBuffer imgRows imgCols size) imgRows imgCols size

/-- Scatter followed at once by gather: the unmodified `localBuffer` blocks
gathered with the same table. -/
def scatterThenGather (fullImageBuffer : List uchar) (imgRows imgCols size : Nat) :
    List uchar :=
  gatherBlocks (localBuffer fullImageBuffer imgRows imgCols size) imgRows imgCols size

/-- The first row of block `i`: the number of rows given to participants `< i`. -/
def rowStart (imgRows size i : Nat) : Nat :=
  i * (imgRows / size) + min i (imgRows % size)

/-- The state of the partition loop after `k` iterations. -/
def partitionAfter (R C N k : Nat) : PartitionState :=
  { sendCounts := (List.range N).map (fun i => if i < k then rowCount R N i * C else 0)
    displacements := (List.range N).map (fun i => if i < k then rowStart R N i * C else 0)
    currentDisplacement := rowStart R N k * C }

/-! ## applySobelKernel with checked buffer accesses -/

/-- Checked read `buffer[idx]`: `none` when `idx` is outside the buffer. -/
def readChecked (buffer : List uchar) (idx : Int) : Option uchar :=
  if 0 ≤ idx ∧ idx < (buffer.length : Int) then buffer[idx.toNat]? else none

/-- Checked write `buffer[idx] = v`: `none` when `idx` is outside the buffer. -/
def writeChecked (buffer : List uchar) (idx : Nat) (v : uchar) : Option (List uchar) :=
  if idx < buffer.length then some (buffer.set idx v) else none

/-- One iteration of the innermost loop, with the read checked. -/
def convolveStepChecked (inputBuffer : List uchar) (cols i j : Nat) (k : Int)
    (acc : Int × Int) (l : Int) : Option (Int × Int) :=
  (readChecked inputBuffer (readIndex cols i j k l)).map
    (fun v => (acc.1 + ((v.val : Nat) : Int) * kernelAt Gx (k + 1) (l + 1),
      acc.2 + ((v.val : Nat) : Int) * kernelAt Gy (k + 1) (l + 1)))

/-- The 3x3 convolution loops with every read checked. -/
def convolveChecked (inputBuffer : List uchar) (cols i j : Nat) : Option (Int × Int) :=
  [-1, 0, 1].foldlM
    (fun acc k => [-1, 0, 1].foldlM (convolveStepChecked inputBuffer cols i j k) acc) (0, 0)

/-- The body of the `j` loop with every read and the write checked. -/
def sobelStepChecked (inputBuffer : List uchar) (rows cols i : Nat)
    (outputBuffer : List uchar) (j : Nat) : Option (List uchar) :=
  if i = 0 ∨ (i : Int) = (rows : Int) - 1 ∨ j = 0 ∨ (j : Int) = (cols : Int) - 1 then
    writeChecked outputBuffer (i * cols + j) 0
  else
    (convolveChecked inputBuffer cols i j).bind
      (fun s => writeChecked outputBuffer (i * cols + j) (clampToUchar (magnitudeOf s.1 s.2)))

/-- The function `applySobelKernel` with every buffer access checked: `none` as
soon as one index falls outside its buffer. -/
def applySobelKernelChecked (inputBuffer outputBuffer : List uchar) (rows cols : Nat) :
    Option (List uchar) :=
  (List.range rows).foldlM
    (fun out i => (List.range cols).foldlM (sobelStepChecked inputBuffer rows cols i) out)
    outputBuffer

/-! ## The serial and OpenMP variants of the Sobel stage

`src/serial/main.cpp` and `src/openmp/main.cpp` work on `cv::Mat` images of type
`CV_8UC1`. Such an image is modelled by its dimensions and its samples in
row-major order (a continuous matrix, as `Mat::create` allocates it), and
`m.at<uchar>(r, c)` is the sample at index `r * cols + c`. `output.create(...)`
allocates `rows * cols` samples whose content is unspecified: the embedding takes
that content as a parameter `alloc`. -/

/-- A single-channel 8-bit `cv::Mat`. -/
structure Mat where
  rows : Nat
  cols : Nat
  data : List uchar
deriving DecidableEq

/-- The read `m.at<uchar>(r, c)`. -/
def Mat.sampleAt (m : Mat) (r c : Int) : uchar :=
  readAt m.data (r * (m.cols : Int) + c)

/-- One iteration of the innermost loop of `applySobel` and `applySobelOMP`. -/
def convolveMatStep (input : Mat) (i j : Nat) (k : Int) (acc : Int × Int) (l : Int) :
    Int × Int :=
  let val : Int := ((input.sampleAt ((i : Int) + k) ((j : Int) + l)).val : Int)
  (acc.1 + val * kernelAt Gx (k + 1) (l + 1), acc.2 + val * kernelAt Gy (k + 1) (l + 1))

/-- The 3x3 loops of `applySobel` and `applySobelOMP`: the pair `(sumX, sumY)`. -/
def convolveMat (input : Mat) (i j : Nat) : Int × Int :=
  [-1, 0, 1].foldl (fun acc k => [-1, 0, 1].foldl (convolveMatStep input i j k) acc) (0, 0)

/-- The body of the `j` loop of the serial `applySobel`: the magnitude is
clamped with `if (magnitude > 255) magnitude = 255;` and then cast. -/
def applySobelStep (input : Mat) (i : Nat) (output : List uchar) (j : Nat) : List uchar :=
  let s := convolveMat input i j
  let magnitude := magnitudeOf s.1 s.2
  let magnitude := if magnitude > 255 then 255 else magnitude
  output.set (i * input.cols + j) (Fin.ofNat magnitude)

/-- The serial `applySobel(input, output)`: the matrix `output` when it returns;
`i` runs over `1 .. rows - 2` and `j` over `1 .. cols - 2`. -/
def applySobel (input : Mat) (alloc : List uchar) : Mat :=
  { rows := input.rows
    cols := input.cols
    data := (List.range' 1 (input.rows - 2)).foldl
      (fun out i => (List.range' 1 (input.cols - 2)).foldl (applySobelStep input i) out) alloc }

/-- The body of the collapsed loops of `applySobelOMP`. -/
def applySobelOMPStep (input : Mat) (i : Nat) (output : List uchar) (j : Nat) : List uchar :=
  let s := convolveMat input i j
  output.set (i * input.cols + j) (clampToUchar (magnitudeOf s.1 s.2))

/-- The OpenMP `applySobelOMP(input, output)` with its iterations run one after
the other in loop order: the matrix `output` when it returns. -/
def applySobelOMP (input : Mat) (alloc : List uchar) : Mat :=
  { rows := input.rows
    cols := input.cols
    data := (List.range' 1 (input.rows - 2)).foldl
      (fun out i => (List.range' 1 (input.cols - 2)).foldl (applySobelOMPStep input i) out)
      alloc }

/-! ## Timeline: the timing reductions of `main`

Time stamps (`MPI_Wtime`, in seconds) and durations are rational numbers; the
rounding of the `double` subtraction and of the product by `1000.0` is not
modelled. `MPI_Reduce` with `MPI_MAX` and root `0` leaves at the root the
maximum of the contributions of ranks `0 .. size - 1`. -/

/-- The four time stamps a participant takes around its two stages. -/
structure StageStamps where
  t_proc_start : Rat
  t_proc_end : Rat
  t_post_start : Rat
  t_post_end : Rat

/-- The local duration `my_proc_time = t_proc_end - t_proc_start`. -/
def my_proc_time (t : StageStamps) : Rat := t.t_proc_end - t.t_proc_start

/-- The local duration `my_post_time = t_post_end - t_post_start`. -/
def my_post_time (t : StageStamps) : Rat := t.t_post_end - t.t_post_start

/-- The value `MPI_Reduce(..., MPI_MAX, 0, ...)` stores at the root: the
contributions of ranks `0, 1, .., size - 1` combined with `max` in rank order. -/
def mpiReduceMax (contrib : Nat → Rat) (size : Nat) : Rat :=
  (List.range' 1 (size - 1)).foldl (fun acc r => max acc (contrib r)) (contrib 0)

/-- The value `max_proc_time` at the coordinator. -/
def max_proc_time (stamps : Nat → StageStamps) (size : Nat) : Rat :=
  mpiReduceMax (fun r => my_proc_time (stamps r)) size

/-- The value `max_post_time` at the coordinator. -/
def max_post_time (stamps : Nat → StageStamps) (size : Nat) : Rat :=
  mpiReduceMax (fun r => my_post_time (stamps r)) size

/-- The reported `process_time_ms = max_proc_time * 1000.0`. -/
def process_time_ms (stamps : Nat → StageStamps) (size : Nat) : Rat :=
  max_proc_time stamps size * 1000

/-- The reported `postprocess_time_ms = max_post_time * 1000.0`. -/
def postprocess_time_ms (stamps : Nat → StageStamps) (size : Nat) : Rat :=
  max_post_time stamps size * 1000

/-- Time stamps of a sample run: participant `r` computes for `r + 1` seconds
and postprocesses for `2 - r / 4` seconds. -/
def sampleStamps (r : Nat) : StageStamps :=
  { t_proc_start := 0
    t_proc_end := (r : Rat) + 1
    t_post_start := 10
    t_post_end := 12 - (r : Rat) / 4 }

/-! ## The control flow of `main` across participants

Each participant runs the same `main`; what it does is a list of actions in
program order, depending on its rank and on the loaded image. The calls
`MPI_Init` and `MPI_Finalize` (bootstrap and shutdown of the runtime) are left
out. The participants run side by side: an action that is not a collective is
taken by one participant on its own; a collective is taken by all participants
together, once every one of them has it as its next action; `MPI_Abort` ends
the whole run. `cv::Mat::empty()` holds exactly of a matrix without elements,
which is also what `cv::imread` returns when it cannot decode the file. -/

/-- The steps of `main`. -/
inductive Action
  | loadImage
  | abort
  | convertToGray
  | bcastRows
  | bcastCols
  | computeTable
  | divideRows
  | allocLocal
  | scatterv
  | barrier
  | sobel
  | threshold
  | resizeFinal
  | gatherv
  | reduceProc
  | reducePost
  | report
deriving DecidableEq

/-- The collective operations among the steps. -/
def Action.isCollective : Action → Bool
  | .bcastRows => true
  | .bcastCols => true
  | .scatterv => true
  | .barrier => true
  | .gatherv => true
  | .reduceProc => true
  | .reducePost => true
  | _ => false

/-- The test `img.empty()` on a loaded image of `rows x cols` pixels. -/
def imageEmpty (rows cols : Nat) : Bool := rows * cols == 0

/-- The block `if (rank == 0) { ... }` at the start of `main`, for the
coordinator, on a loaded image of `rows x cols` pixels. -/
def coordinatorPrologue (rows cols : Nat) : List Action :=
  [Action.loadImage] ++ (if imageEmpty rows cols then [Action.abort] else [])
    ++ [Action.convertToGray]

/-- The part of `main` from the first broadcast on, for participant `rank`. -/
def commonProgram (rank : Nat) : List Action :=
  [Action.bcastRows, Action.bcastCols, Action.computeTable, Action.divideRows,
    Action.allocLocal, Action.scatterv, Action.barrier, Action.sobel, Action.threshold]
    ++ (if rank = 0 then [Action.resizeFinal] else [])
    ++ [Action.gatherv, Action.reduceProc, Action.reducePost]
    ++ (if rank = 0 then [Action.report] else [])

/-- The steps of `main` in program order for participant `rank`, when the image
the coordinator loads has `rows x cols` pixels. -/
def program (rows cols rank : Nat) : List Action :=
  (if rank = 0 then coordinatorPrologue rows cols else []) ++ commonProgram rank

/-- The state of a run: what each participant has still to do, the steps taken
so far (with the rank that took them), and whether `MPI_Abort` was called. -/
structure System where
  progs : List (List Action)
  log : List (Nat × Action)
  aborted : Bool

/-- The state in which `size` participants start `main`. -/
def initialSystem (rows cols size : Nat) : System :=
  { progs := (List.range size).map (program rows cols)
    log := []
    aborted := false }

/-- One step of a run. -/
inductive Step : System → System → Prop
  | localStep (s : System) (r : Nat) (a : Action) (rest : List Action) :
      s.aborted = false → s.progs[r]? = some (a :: rest) → a.isCollective = false →
      a ≠ Action.abort →
      Step s { progs := s.progs.set r rest, log := s.log ++ [(r, a)], aborted := false }
  | abortStep (s : System) (r : Nat) (rest : List Action) :
      s.aborted = false → s.progs[r]? = some (Action.abort :: rest) →
      Step s { progs := s.progs, log := s.log ++ [(r, Action.abort)], aborted := true }
  | collectiveStep (s : System) (c : Action) :
      s.aborted = false → s.progs ≠ [] → c.isCollective = true →
      (∀ p, p ∈ s.progs → p.head? = some c) →
      Step s { progs := s.progs.map List.tail
               log := s.log ++ (List.range s.progs.length).map (fun r => (r, c))
               aborted := false }

/-- The states a run can reach from the start. -/
def Reachable (rows cols size : Nat) (s : System) : Prop :=
  Relation.ReflTransGen Step (initialSystem rows cols size) s

/-- Every participant has completed `main`. -/
def Finished (s : System) : Prop :=
  s.aborted = false ∧ ∀ p, p ∈ s.progs → p = []

/-- The number of steps the participants have still to take. -/
def remaining (s : System) : Nat :=
  (s.progs.map List.length).sum

/-- The values of `imgRows` and `imgCols` at `rank` before the broadcasts: the
dimensions of the loaded image at the coordinator, `0` elsewhere. -/
def dimsBeforeBcast (rows cols rank : Nat) : Nat × Nat :=
  if rank = 0 then (rows, cols) else (0, 0)

/-- The effect of `MPI_Bcast` with root `root`: every participant holds the
root's value. -/
def mpiBcast {α : Type} (values : Nat → α) (root : Nat) : Nat → α :=
  fun _ => values root

/-- The values of `imgRows` and `imgCols` at `rank` after the two broadcasts. -/
def dimsAfterBcast (rows cols rank : Nat) : Nat × Nat :=
  mpiBcast (dimsBeforeBcast rows cols) 0 rank

/-- The table participant `rank` computes in its own partition loop. -/
def tableAt (rows cols size rank : Nat) : PartitionState :=
  partitionTable (dimsAfterBcast rows cols rank).1 (dimsAfterBcast rows cols rank).2 size

/-- The participants are aligned: the run has not aborted, no participant has an
`MPI_Abort` ahead, and all participants have the same collectives ahead, in the
same order. -/
def CollectivesAligned (s : System) : Prop :=
  s.aborted = false ∧ s.progs ≠ [] ∧ (∀ p, p ∈ s.progs → Action.abort ∉ p) ∧
    ∃ cs, ∀ p, p ∈ s.progs → p.filter Action.isCollective = cs

/-- What is left of the coordinator's program once it has loaded the image. -/
def afterLoad (rows cols size : Nat) : List (List Action) :=
  ((List.range size).map (program rows cols)).set 0
    (Action.abort :: Action.convertToGray :: commonProgram 0)

/-- The three states of a run on an image without elements: at the start; the
coordinator has loaded the image; the coordinator has called `MPI_Abort`. -/
def AbortingRun (rows cols size : Nat) (s : System) : Prop :=
  (s.progs = (List.range size).map (program rows cols) ∧ s.log = [] ∧ s.aborted = false) ∨
  (s.progs = afterLoad rows cols size ∧ s.log = [(0, Action.loadImage)] ∧ s.aborted = false) ∨
  (s.progs = afterLoad rows cols size ∧
    s.log = [(0, Action.loadImage), (0, Action.abort)] ∧ s.aborted = true)

/-- A sample 3x3 block: the brightest and the darkest samples side by side. -/
def sampleBlock : List uchar := [0, 0, 255, 0, 0, 255, 0, 0, 255]

/-! ## The partition table: closed form -/

theorem rowStart_zero (R N : Nat) : rowStart R N 0 = 0 := by
  simp [rowStart]

theorem rowStart_succ (R N i : Nat) :
    rowStart R N (i + 1) = rowStart R N i + rowCount R N i := by
  unfold rowStart rowCount
  rw [Nat.succ_mul]
  split <;> omega

theorem rowStart_size (R N : Nat) (hN : 1 ≤ N) : rowStart R N N = R := by
  unfold rowStart
  have h1 : R % N < N := Nat.mod_lt _ (by omega)
  have h2 := Nat.div_add_mod R N
  rw [Nat.min_eq_right (by omega)]
  exact h2

theorem rowStart_mono (R N : Nat) {i j : Nat} (h : i ≤ j) : rowStart R N i ≤ rowStart R N j := by
  induction j with
  | zero => simp_all
  | succ j ih =>
    rcases Nat.lt_or_ge i (j + 1) with h1 | h1
    · rw [rowStart_succ]; have := ih (by omega); omega
    · have : i = j + 1 := by omega
      subst this; exact Nat.le_refl _

theorem set_map_range_if (N k : Nat) (F : Nat → Nat) (hk : k < N) :
    ((List.range N).map (fun i => if i < k then F i else 0)).set k (F k)
      = (List.range N).map (fun i => if i < k + 1 then F i else 0) := by
  apply List.ext_getElem?
  intro p
  simp only [List.getElem?_set, List.length_map, List.length_range, List.getElem?_map]
  by_cases hp : p < N
  · rw [List.getElem?_range hp]
    by_cases hpk : k = p
    · subst hpk; simp [hk]
    · simp only [hpk, ↓reduceIte, Option.map_some']
      congr 1
      by_cases h3 : p < k
      · simp [h3, Nat.lt_succ_of_lt h3]
      · have : ¬ p < k + 1 := by omega
        simp [h3, this]
  · have hnone : (List.range N)[p]? = none := by
      rw [List.getElem?_eq_none_iff]; simp; omega
    have : k ≠ p := by omega
    simp [hnone, this]

theorem partition_fold (R C N k : Nat) (hk : k ≤ N) :
    (List.range k).foldl (partitionStep (R / N) (R % N) C)
      { sendCounts := List.replicate N 0
        displacements := List.replicate N 0
        currentDisplacement := 0 } = partitionAfter R C N k := by
  induction k with
  | zero =>
    simp only [List.range_zero, List.foldl_nil, partitionAfter, rowStart_zero, Nat.zero_mul,
      Nat.not_lt_zero, ↓reduceIte]
    congr 1 <;>
    · apply List.ext_getElem?
      intro p
      by_cases hp : p < N
      · simp [List.getElem?_replicate, hp, List.getElem?_range hp]
      · have hnone : (List.range N)[p]? = none := by
          rw [List.getElem?_eq_none_iff]; simp; omega
        simp [List.getElem?_replicate, hp, hnone]
  | succ k ih =>
    rw [List.range_succ, List.foldl_append, ih (by omega)]
    simp only [List.foldl_cons, List.foldl_nil, partitionStep, partitionAfter]
    have hkN : k < N := by omega
    have e1 : ((List.range N).map (fun i => if i < k then rowCount R N i * C else 0)).set k
        ((R / N + if k < R % N then 1 else 0) * C)
          = (List.range N).map (fun i => if i < k + 1 then rowCount R N i * C else 0) :=
      set_map_range_if N k (fun i => rowCount R N i * C) hkN
    have e2 : ((List.range N).map (fun i => if i < k then rowStart R N i * C else 0)).set k
        (rowStart R N k * C)
          = (List.range N).map (fun i => if i < k + 1 then rowStart R N i * C else 0) :=
      set_map_range_if N k (fun i => rowStart R N i * C) hkN
    rw [e1, e2]
    congr 1
    rw [rowStart_succ, Nat.add_mul]
    congr 1
    rw [List.getD_eq_getElem?_getD, List.getElem?_map, List.getElem?_range hkN]
    simp [rowCount]

/-- Closed form of the table computed by the partition loop. -/
theorem partitionTable_eq (R C N : Nat) :
    partitionTable R C N =
      { sendCounts := (List.range N).map (fun i => rowCount R N i * C)
        displacements := (List.range N).map (fun i => rowStart R N i * C)
        currentDisplacement := rowStart R N N * C } := by
  unfold partitionTable
  rw [partition_fold R C N N (Nat.le_refl _)]
  unfold partitionAfter
  congr 1 <;>
  · apply List.map_congr_left
    intro i hi
    simp [List.mem_range.1 hi]

theorem sendCounts_eq (R C N : Nat) :
    (partitionTable R C N).sendCounts = (List.range N).map (fun i => rowCount R N i * C) := by
  rw [partitionTable_eq]

theorem displacements_eq (R C N : Nat) :
    (partitionTable R C N).displacements = (List.range N).map (fun i => rowStart R N i * C) := by
  rw [partitionTable_eq]

theorem sendCounts_getD (R C N : Nat) {i : Nat} (hi : i < N) :
    (partitionTable R C N).sendCounts.getD i 0 = rowCount R N i * C := by
  rw [sendCounts_eq, List.getD_eq_getElem?_getD, List.getElem?_map, List.getElem?_range hi]
  rfl

theorem displacements_getD (R C N : Nat) {i : Nat} (hi : i < N) :
    (partitionTable R C N).displacements.getD i 0 = rowStart R N i * C := by
  rw [displacements_eq, List.getD_eq_getElem?_getD, List.getElem?_map, List.getElem?_range hi]
  rfl

theorem sendCounts_getD_of_ge (R C N : Nat) {i : Nat} (hi : N ≤ i) :
    (partitionTable R C N).sendCounts.getD i 0 = 0 := by
  rw [sendCounts_eq, List.getD_eq_getElem?_getD, List.getElem?_eq_none_iff.2 (by simpa using hi)]
  rfl

theorem sum_rowCount_range (R N k : Nat) :
    ((List.range k).map (rowCount R N)).sum = rowStart R N k := by
  induction k with
  | zero => simp [rowStart_zero]
  | succ k ih => rw [List.sum_range_succ, ih, rowStart_succ]

theorem sum_sendCounts_range (R C N k : Nat) :
    ((List.range k).map (fun i => rowCount R N i * C)).sum = rowStart R N k * C := by
  induction k with
  | zero => simp [rowStart_zero]
  | succ k ih => rw [List.sum_range_succ, ih, rowStart_succ, Nat.add_mul]

theorem block_cover (R C N : Nat) (p : Nat) :
    ∀ k, p < rowStart R N k * C →
      ∃ i, i < k ∧ rowStart R N i * C ≤ p ∧ p < rowStart R N i * C + rowCount R N i * C := by
  intro k
  induction k with
  | zero => intro h; simp [rowStart_zero] at h
  | succ k ih =>
    intro h
    rcases Nat.lt_or_ge p (rowStart R N k * C) with h1 | h1
    · obtain ⟨i, hi, h2, h3⟩ := ih h1
      exact ⟨i, by omega, h2, h3⟩
    · refine ⟨k, by omega, h1, ?_⟩
      rw [rowStart_succ, Nat.add_mul] at h
      exact h

/-! ## The partition table: row counts and offsets -/

/-- C2: for every `N ≥ 1` the row counts `rowsPerProcess + (i < remainder ? 1 : 0)`
of the partition loop sum to `R`; the table `sendCounts` holds these row counts
times `C`, and its entries sum to `R * C`. -/
theorem partition_rows_sum (R C N : Nat) (hN : 1 ≤ N) :
    (rowCounts R N).sum = R ∧
    (partitionTable R C N).sendCounts = (rowCounts R N).map (fun r => r * C) ∧
    (partitionTable R C N).sendCounts.sum = R * C := by
  refine ⟨?_, ?_, ?_⟩
  · rw [rowCounts, sum_rowCount_range, rowStart_size R N hN]
  · rw [sendCounts_eq, rowCounts, List.map_map]
    rfl
  · rw [sendCounts_eq, sum_sendCounts_range, rowStart_size R N hN]

theorem partition_rows_sum_witness :
    (rowCounts 10 4).sum = 10 ∧
    (partitionTable 10 3 4).sendCounts = (rowCounts 10 4).map (fun r => r * 3) ∧
    (partitionTable 10 3 4).sendCounts.sum = 10 * 3 :=
  partition_rows_sum 10 3 4 (by decide)

/-- C3: for every `N ≥ 1` the table `displacements` starts at `0`, each entry is
the previous one plus `rows[i] * C`, the last block ends at `R * C`; hence the
blocks `[displacements[i], displacements[i] + sendCounts[i])` are pairwise
disjoint, in increasing order, and every index below `R * C` lies in one. -/
theorem displacements_contiguous (R C N : Nat) (hN : 1 ≤ N) :
    (partitionTable R C N).sendCounts.length = N ∧
    (partitionTable R C N).displacements.length = N ∧
    (partitionTable R C N).displacements[0]? = some 0 ∧
    (∀ i, i + 1 < N →
      (partitionTable R C N).displacements[i + 1]? =
        some ((partitionTable R C N).displacements.getD i 0 + rowCount R N i * C) ∧
      (partitionTable R C N).sendCounts[i]? = some (rowCount R N i * C)) ∧
    (partitionTable R C N).displacements.getD (N - 1) 0 +
      (partitionTable R C N).sendCounts.getD (N - 1) 0 = R * C ∧
    (∀ i j, i < j → j < N →
      (partitionTable R C N).displacements.getD i 0 +
        (partitionTable R C N).sendCounts.getD i 0 ≤
          (partitionTable R C N).displacements.getD j 0) ∧
    (∀ p, p < R * C → ∃ i, i < N ∧
      (partitionTable R C N).displacements.getD i 0 ≤ p ∧
      p < (partitionTable R C N).displacements.getD i 0 +
        (partitionTable R C N).sendCounts.getD i 0) := by
  refine ⟨?_, ?_, ?_, ?_, ?_, ?_, ?_⟩
  · simp [sendCounts_eq]
  · simp [displacements_eq]
  · rw [displacements_eq, List.getElem?_map, List.getElem?_range (by omega)]
    simp [rowStart_zero]
  · intro i hi
    constructor
    · rw [displacements_getD R C N (by omega : i < N), displacements_eq, List.getElem?_map,
        List.getElem?_range hi]
      simp [rowStart_succ, Nat.add_mul]
    · rw [sendCounts_eq, List.getElem?_map, List.getElem?_range (by omega)]
      rfl
  · rw [displacements_getD R C N (by omega : N - 1 < N),
      sendCounts_getD R C N (by omega : N - 1 < N), ← Nat.add_mul, ← rowStart_succ]
    have : N - 1 + 1 = N := by omega
    rw [this, rowStart_size R N hN]
  · intro i j hij hj
    rw [displacements_getD R C N (by omega : i < N), sendCounts_getD R C N (by omega : i < N),
      displacements_getD R C N hj, ← Nat.add_mul, ← rowStart_succ]
    exact Nat.mul_le_mul_right C (rowStart_mono R N hij)
  · intro p hp
    have hp2 : p < rowStart R N N * C := by rw [rowStart_size R N hN]; exact hp
    obtain ⟨i, hi, h1, h2⟩ := block_cover R C N p N hp2
    refine ⟨i, hi, ?_, ?_⟩
    · rw [displacements_getD R C N hi]; exact h1
    · rw [displacements_getD R C N hi, sendCounts_getD R C N hi]; exact h2

theorem displacements_contiguous_witness :
    (partitionTable 10 3 4).sendCounts.length = 4 ∧
    (partitionTable 10 3 4).displacements.length = 4 ∧
    (partitionTable 10 3 4).displacements[0]? = some 0 ∧
    (∀ i, i + 1 < 4 →
      (partitionTable 10 3 4).displacements[i + 1]? =
        some ((partitionTable 10 3 4).displacements.getD i 0 + rowCount 10 4 i * 3) ∧
      (partitionTable 10 3 4).sendCounts[i]? = some (rowCount 10 4 i * 3)) ∧
    (partitionTable 10 3 4).displacements.getD (4 - 1) 0 +
      (partitionTable 10 3 4).sendCounts.getD (4 - 1) 0 = 10 * 3 ∧
    (∀ i j, i < j → j < 4 →
      (partitionTable 10 3 4).displacements.getD i 0 +
        (partitionTable 10 3 4).sendCounts.getD i 0 ≤
          (partitionTable 10 3 4).displacements.getD j 0) ∧
    (∀ p, p < 10 * 3 → ∃ i, i < 4 ∧
      (partitionTable 10 3 4).displacements.getD i 0 ≤ p ∧
      p < (partitionTable 10 3 4).displacements.getD i 0 +
        (partitionTable 10 3 4).sendCounts.getD i 0) :=
  displacements_contiguous 10 3 4 (by decide)

/-! ## Buffer writes -/

theorem length_writeAt (block : List uchar) :
    ∀ (buf : List uchar) (off : Nat), (writeAt buf off block).length = buf.length := by
  induction block with
  | nil => intro buf off; rfl
  | cons b bs ih => intro buf off; simp [writeAt, ih]

theorem getElem?_writeAt (block : List uchar) :
    ∀ (buf : List uchar) (off p : Nat),
      (writeAt buf off block)[p]? =
        if off ≤ p ∧ p < off + block.length ∧ p < buf.length then block[p - off]?
        else buf[p]? := by
  induction block with
  | nil =>
    intro buf off p
    have : ¬ (off ≤ p ∧ p < off + ([] : List uchar).length ∧ p < buf.length) := by
      simp only [List.length_nil]; omega
    rw [if_neg this]
    rfl
  | cons b bs ih =>
    intro buf off p
    simp only [writeAt, ih, List.length_set, List.length_cons, List.getElem?_set]
    by_cases h1 : off = p
    · subst h1
      by_cases h2 : off < buf.length
      · have h3 : ¬ (off + 1 ≤ off ∧ off < off + 1 + bs.length ∧ off < buf.length) := by omega
        have h4 : off ≤ off ∧ off < off + (bs.length + 1) ∧ off < buf.length := by omega
        simp [h3, h4, h2]
      · have h3 : ¬ (off + 1 ≤ off ∧ off < off + 1 + bs.length ∧ off < buf.length) := by omega
        have h4 : ¬ (off ≤ off ∧ off < off + (bs.length + 1) ∧ off < buf.length) := by omega
        rw [if_neg h3, if_neg h4, if_neg h2, if_pos rfl]
        exact (List.getElem?_eq_none_iff.2 (Nat.le_of_not_lt h2)).symm
    · by_cases h2 : off + 1 ≤ p ∧ p < off + 1 + bs.length ∧ p < buf.length
      · have h4 : off ≤ p ∧ p < off + (bs.length + 1) ∧ p < buf.length := by omega
        have h5 : p - off = (p - (off + 1)) + 1 := by omega
        simp only [h2, h4, and_self, ↓reduceIte, h5, List.getElem?_cons_succ]
      · have h4 : ¬ (off ≤ p ∧ p < off + (bs.length + 1) ∧ p < buf.length) := by omega
        simp only [h2, h4, h1, ↓reduceIte]

/-- Writing a block that fits replaces exactly the segment it covers. -/
theorem writeAt_eq (buf block : List uchar) (off : Nat) (h : off + block.length ≤ buf.length) :
    writeAt buf off block = buf.take off ++ block ++ buf.drop (off + block.length) := by
  apply List.ext_getElem?
  intro p
  rw [getElem?_writeAt]
  by_cases h1 : p < off
  · have : ¬ (off ≤ p ∧ p < off + block.length ∧ p < buf.length) := by omega
    rw [if_neg this, List.append_assoc, List.getElem?_append_left (by simp; omega),
      List.getElem?_take]
    simp [h1]
  · by_cases h2 : p < off + block.length
    · have : off ≤ p ∧ p < off + block.length ∧ p < buf.length := by omega
      rw [if_pos this, List.getElem?_append_left (by simp; omega),
        List.getElem?_append_right (by simp; omega)]
      simp [Nat.min_eq_left (by omega : off ≤ buf.length)]
    · have : ¬ (off ≤ p ∧ p < off + block.length ∧ p < buf.length) := by omega
      rw [if_neg this, List.getElem?_append_right (by simp; omega), List.getElem?_drop]
      congr 1
      simp [Nat.min_eq_left (by omega : off ≤ buf.length)]
      omega

theorem writeAt_zero_full (buf block : List uchar) (h : block.length = buf.length) :
    writeAt buf 0 block = block := by
  rw [writeAt_eq buf block 0 (by omega)]
  simp [h]

/-! ## Gather: the gathered buffer is the concatenation of the blocks -/

theorem length_flatten_blocks (blocks : Nat → List uchar) (R C N : Nat)
    (hlen : ∀ i, i < N → (blocks i).length = rowCount R N i * C) :
    ∀ k, k ≤ N → (((List.range k).map blocks).flatten).length = rowStart R N k * C := by
  intro k
  induction k with
  | zero => intro _; simp [rowStart_zero]
  | succ k ih =>
    intro hk
    rw [List.range_succ, List.map_append, List.flatten_append, List.length_append,
      ih (by omega), rowStart_succ, Nat.add_mul]
    simp [hlen k (by omega)]

theorem gatherv_fold (blocks : Nat → List uchar) (init : List uchar) (R C N : Nat)
    (hlen : ∀ i, i < N → (blocks i).length = rowCount R N i * C)
    (hinit : init.length = rowStart R N N * C) :
    ∀ k, k ≤ N →
      (List.range k).foldl
        (fun buf i => writeAt buf ((partitionTable R C N).displacements.getD i 0)
          ((blocks i).take ((partitionTable R C N).sendCounts.getD i 0))) init
        = ((List.range k).map blocks).flatten ++ init.drop (rowStart R N k * C) := by
  intro k
  induction k with
  | zero => intro _; simp [rowStart_zero]
  | succ k ih =>
    intro hk
    have hkN : k < N := by omega
    rw [List.range_succ, List.foldl_append, ih (by omega)]
    simp only [List.foldl_cons, List.foldl_nil]
    rw [displacements_getD R C N hkN, sendCounts_getD R C N hkN,
      List.take_of_length_le (by rw [hlen k hkN])]
    have hJ := length_flatten_blocks blocks R C N hlen k (by omega)
    have hmono : rowStart R N (k + 1) * C ≤ rowStart R N N * C :=
      Nat.mul_le_mul_right C (rowStart_mono R N hk)
    rw [rowStart_succ, Nat.add_mul] at hmono
    rw [writeAt_eq _ _ _ (by simp [hJ, hlen k hkN, hinit]; omega)]
    rw [List.take_left' hJ, List.map_append, List.flatten_append, hlen k hkN]
    have hd : (((List.range k).map blocks).flatten ++ init.drop (rowStart R N k * C)).drop
        (rowStart R N k * C + rowCount R N k * C) = init.drop (rowStart R N (k + 1) * C) := by
      rw [← List.drop_drop, List.drop_left' hJ, List.drop_drop, rowStart_succ, Nat.add_mul]
    rw [hd]
    simp

/-- With the table of `main`, blocks of the planned lengths and a receive
buffer of `R * C` samples, the gather yields the blocks in rank order. -/
theorem gatherBlocks_eq_flatten (blocks : Nat → List uchar) (R C N : Nat) (hN : 1 ≤ N)
    (hlen : ∀ i, i < N → (blocks i).length = rowCount R N i * C) :
    gatherBlocks blocks R C N = ((List.range N).map blocks).flatten := by
  unfold gatherBlocks gatherv
  have hinit : (List.replicate (R * C) (0 : uchar)).length = rowStart R N N * C := by
    rw [rowStart_size R N hN]; simp
  rw [gatherv_fold blocks _ R C N hlen hinit N (Nat.le_refl _), List.drop_of_length_le (by omega)]
  simp

theorem getElem?_flatten_blocks (blocks : Nat → List uchar) (R C N : Nat)
    (hlen : ∀ i, i < N → (blocks i).length = rowCount R N i * C) :
    ∀ k, k ≤ N → ∀ i q, i < k → q < rowCount R N i * C →
      (((List.range k).map blocks).flatten)[rowStart R N i * C + q]? = (blocks i)[q]? := by
  intro k
  induction k with
  | zero => intro _ i q hi; omega
  | succ k ih =>
    intro hk i q hi hq
    have hJ := length_flatten_blocks blocks R C N hlen k (by omega)
    rw [List.range_succ, List.map_append, List.flatten_append]
    rcases Nat.lt_or_ge i k with h1 | h1
    · have hle : rowStart R N (i + 1) * C ≤ rowStart R N k * C :=
        Nat.mul_le_mul_right C (rowStart_mono R N h1)
      rw [rowStart_succ, Nat.add_mul] at hle
      rw [List.getElem?_append_left (by omega)]
      exact ih (by omega) i q h1 hq
    · have : i = k := by omega
      subst this
      rw [List.getElem?_append_right (by omega), hJ]
      simp

/-! ## Scatter -/

theorem myDataSize_eq (R C N : Nat) {i : Nat} (hi : i < N) :
    myDataSize R C N i = rowCount R N i * C :=
  sendCounts_getD R C N hi

theorem myRows_eq (R C N : Nat) (hC : 1 ≤ C) {i : Nat} (hi : i < N) :
    myRows R C N i = rowCount R N i := by
  unfold myRows
  rw [sendCounts_getD R C N hi]
  exact Nat.mul_div_cancel _ (by omega)

theorem slice_in_range (R C N : Nat) {i : Nat} (hi : i < N) :
    rowStart R N i * C + rowCount R N i * C ≤ rowStart R N N * C := by
  rw [← Nat.add_mul, ← rowStart_succ]
  exact Nat.mul_le_mul_right C (rowStart_mono R N hi)

/-- After the scatter, `localBuffer` of `rank` is the slice of the full grid
that the table assigns to it. -/
theorem localBuffer_eq (full : List uchar) (R C N : Nat) (hN : 1 ≤ N)
    (hfull : full.length = R * C) {i : Nat} (hi : i < N) :
    localBuffer full R C N i =
      (full.drop (rowStart R N i * C)).take (rowCount R N i * C) := by
  unfold localBuffer scatterv
  rw [myDataSize_eq R C N hi, displacements_getD R C N hi, sendCounts_getD R C N hi]
  apply writeAt_zero_full
  have h := slice_in_range R C N hi
  rw [rowStart_size R N hN] at h
  simp only [List.length_take, List.length_drop, List.length_replicate, hfull]
  omega

theorem length_localBuffer (full : List uchar) (R C N i : Nat) :
    (localBuffer full R C N i).length = myDataSize R C N i := by
  unfold localBuffer scatterv
  rw [length_writeAt]
  simp

theorem flatten_slices (full : List uchar) (R C N : Nat) :
    ∀ k, ((List.range k).map
        (fun i => (full.drop (rowStart R N i * C)).take (rowCount R N i * C))).flatten
      = full.take (rowStart R N k * C) := by
  intro k
  induction k with
  | zero => simp [rowStart_zero]
  | succ k ih =>
    rw [List.range_succ, List.map_append, List.flatten_append, ih, rowStart_succ, Nat.add_mul,
      List.take_add]
    simp

/-! ## Round trip -/

/-- C1: for every grid of `R * C` samples and every participant count `N ≥ 1`,
scattering the grid with the table of `main` and gathering the unmodified local
blocks with the same table gives back the grid, sample for sample. -/
theorem scatter_gather_roundtrip (full : List uchar) (R C N : Nat) (hN : 1 ≤ N)
    (hfull : full.length = R * C) :
    scatterThenGather full R C N = full := by
  unfold scatterThenGather
  rw [gatherBlocks_eq_flatten _ R C N hN
    (fun i hi => by rw [length_localBuffer, myDataSize_eq R C N hi])]
  have hmap : (List.range N).map (localBuffer full R C N) =
      (List.range N).map
        (fun i => (full.drop (rowStart R N i * C)).take (rowCount R N i * C)) := by
    apply List.map_congr_left
    intro i hi
    exact localBuffer_eq full R C N hN hfull (List.mem_range.1 hi)
  rw [hmap, flatten_slices, rowStart_size R N hN, ← hfull, List.take_length]

theorem scatter_gather_roundtrip_witness :
    scatterThenGather [1, 2, 3, 4, 5, 6, 7, 8, 9, 10, 11, 12, 13, 14, 15] 5 3 2
      = [1, 2, 3, 4, 5, 6, 7, 8, 9, 10, 11, 12, 13, 14, 15] :=
  scatter_gather_roundtrip _ 5 3 2 (by decide) (by decide)

/-! ## Loops that fill a buffer -/

theorem length_foldl_set {α : Type} (idx : Nat → Nat) (f : Nat → α) (l : List Nat) :
    ∀ out : List α, (l.foldl (fun o j => o.set (idx j) (f j)) out).length = out.length := by
  induction l with
  | nil => intro out; rfl
  | cons a l ih => intro out; simp [List.foldl_cons, ih]

theorem getElem?_foldl_set_range {α : Type} (f : Nat → α) (base : Nat) (out : List α) (p : Nat) :
    ∀ n, ((List.range n).foldl (fun o j => o.set (base + j) (f j)) out)[p]? =
      if base ≤ p ∧ p < base + n ∧ p < out.length then some (f (p - base)) else out[p]? := by
  intro n
  induction n with
  | zero =>
    have : ¬ (base ≤ p ∧ p < base + 0 ∧ p < out.length) := by omega
    rw [if_neg this]; rfl
  | succ n ih =>
    rw [List.range_succ, List.foldl_append]
    simp only [List.foldl_cons, List.foldl_nil, List.getElem?_set, length_foldl_set, ih]
    by_cases h1 : base + n = p
    · subst h1
      by_cases h2 : base + n < out.length
      · have h3 : base ≤ base + n ∧ base + n < base + (n + 1) ∧ base + n < out.length := by omega
        rw [if_pos rfl, if_pos h2, if_pos h3]
        simp
      · have h3 : ¬ (base ≤ base + n ∧ base + n < base + (n + 1) ∧ base + n < out.length) := by
          omega
        rw [if_pos rfl, if_neg h2, if_neg h3]
        exact (List.getElem?_eq_none_iff.2 (Nat.le_of_not_lt h2)).symm
    · rw [if_neg h1]
      by_cases h2 : base ≤ p ∧ p < base + n ∧ p < out.length
      · have h3 : base ≤ p ∧ p < base + (n + 1) ∧ p < out.length := by omega
        rw [if_pos h2, if_pos h3]
      · have h3 : ¬ (base ≤ p ∧ p < base + (n + 1) ∧ p < out.length) := by omega
        rw [if_neg h2, if_neg h3]

theorem length_foldl_rows {α : Type} (F : Nat → Nat → α) (cols : Nat) (l : List Nat) :
    ∀ out : List α,
      (l.foldl (fun out i => (List.range cols).foldl
        (fun o j => o.set (i * cols + j) (F i j)) out) out).length = out.length := by
  induction l with
  | nil => intro out; rfl
  | cons a l ih => intro out; simp [List.foldl_cons, ih, length_foldl_set]

theorem getElem?_foldl_rows {α : Type} (F : Nat → Nat → α) (cols : Nat) (out : List α)
    (p : Nat) :
    ∀ m, ((List.range m).foldl (fun out i => (List.range cols).foldl
        (fun o j => o.set (i * cols + j) (F i j)) out) out)[p]? =
      if p < m * cols ∧ p < out.length then some (F (p / cols) (p % cols)) else out[p]? := by
  intro m
  induction m with
  | zero =>
    have : ¬ (p < 0 * cols ∧ p < out.length) := by omega
    rw [if_neg this]; rfl
  | succ m ih =>
    rw [List.range_succ, List.foldl_append]
    simp only [List.foldl_cons, List.foldl_nil]
    rw [getElem?_foldl_set_range (F m) (m * cols), length_foldl_rows, ih, Nat.succ_mul]
    by_cases h1 : m * cols ≤ p ∧ p < m * cols + cols ∧ p < out.length
    · have h2 : p < m * cols + cols ∧ p < out.length := by omega
      have hc : 0 < cols := by omega
      have hdiv : p / cols = m :=
        Nat.div_eq_of_lt_le h1.1 (by rw [Nat.succ_mul]; exact h1.2.1)
      have hmod : p % cols = p - m * cols := by
        have := Nat.div_add_mod p cols
        rw [hdiv, Nat.mul_comm] at this
        omega
      rw [if_pos h1, if_pos h2, hdiv, hmod]
    · rw [if_neg h1]
      by_cases h2 : p < m * cols ∧ p < out.length
      · have h3 : p < m * cols + cols ∧ p < out.length := by omega
        rw [if_pos h2, if_pos h3]
      · have h3 : ¬ (p < m * cols + cols ∧ p < out.length) := by omega
        rw [if_neg h2, if_neg h3]

/-! ## applySobelKernel: closed form -/

theorem sobelStep_eq (input : List uchar) (rows cols i : Nat) :
    sobelStep input rows cols i = fun o j => o.set (i * cols + j) (sobelPixel input rows cols i j) := by
  funext o j
  unfold sobelStep sobelPixel
  split <;> rfl

theorem length_applySobelKernel (input out : List uchar) (rows cols : Nat) :
    (applySobelKernel input out rows cols).length = out.length := by
  unfold applySobelKernel
  simp only [sobelStep_eq]
  exact length_foldl_rows (sobelPixel input rows cols) cols _ out

theorem getElem?_applySobelKernel (input out : List uchar) (rows cols p : Nat) :
    (applySobelKernel input out rows cols)[p]? =
      if p < rows * cols ∧ p < out.length then
        some (sobelPixel input rows cols (p / cols) (p % cols))
      else out[p]? := by
  unfold applySobelKernel
  simp only [sobelStep_eq]
  exact getElem?_foldl_rows (sobelPixel input rows cols) cols out p rows

/-- On an output buffer of `rows * cols` samples the kernel stores `sobelPixel`
at every position. -/
theorem applySobelKernel_eq (input out : List uchar) (rows cols : Nat)
    (hout : out.length = rows * cols) :
    applySobelKernel input out rows cols =
      (List.range (rows * cols)).map
        (fun p => sobelPixel input rows cols (p / cols) (p % cols)) := by
  apply List.ext_getElem?
  intro p
  rw [getElem?_applySobelKernel, List.getElem?_map]
  by_cases hp : p < rows * cols
  · rw [if_pos ⟨hp, by omega⟩, List.getElem?_range hp]
    rfl
  · rw [if_neg (by omega), List.getElem?_eq_none_iff.2 (by omega),
      List.getElem?_eq_none_iff.2 (by simp; omega)]
    rfl

theorem index_lt {rows cols i j : Nat} (hi : i < rows) (hj : j < cols) :
    i * cols + j < rows * cols := by
  have h : (i + 1) * cols ≤ rows * cols := Nat.mul_le_mul_right cols hi
  rw [Nat.succ_mul] at h
  omega

theorem index_div {cols i j : Nat} (hj : j < cols) : (i * cols + j) / cols = i :=
  Nat.div_eq_of_lt_le (Nat.le_add_right _ _) (by rw [Nat.succ_mul]; omega)

theorem index_mod {cols i j : Nat} (hj : j < cols) : (i * cols + j) % cols = j := by
  rw [Nat.mul_comm, Nat.mul_add_mod, Nat.mod_eq_of_lt hj]

/-- The sample stored at `(i, j)` of a block of `rows * cols` samples. -/
theorem applySobelKernel_at (input out : List uchar) (rows cols : Nat)
    (hout : out.length = rows * cols) {i j : Nat} (hi : i < rows) (hj : j < cols) :
    (applySobelKernel input out rows cols)[i * cols + j]? =
      some (sobelPixel input rows cols i j) := by
  rw [getElem?_applySobelKernel, if_pos ⟨index_lt hi hj, by rw [hout]; exact index_lt hi hj⟩,
    index_div hj, index_mod hj]

theorem convolve_eq (input : List uchar) (cols i j : Nat) :
    convolve input cols i j = (Sx input cols i j, Sy input cols i j) := by
  simp only [convolve, convolveStep, kernelAt, Gx, Gy, readIndex, Sx, Sy, neighbour,
    List.foldl_cons, List.foldl_nil]
  have h2 : Int.toNat 2 = 2 := rfl
  norm_num [h2]
  constructor <;> ring

theorem val_clampToUchar (m : Nat) : (clampToUchar m).val = min 255 m := by
  unfold clampToUchar
  split
  · next h => rw [Nat.min_eq_left (by omega)]; rfl
  · next h =>
    rw [Nat.min_eq_right (by omega)]
    show m % 256 = m
    exact Nat.mod_eq_of_lt (by omega)

theorem sobelPixel_interior (input : List uchar) (rows cols i j : Nat)
    (hi : 0 < i) (hi2 : i < rows - 1) (hj : 0 < j) (hj2 : j < cols - 1) :
    sobelPixel input rows cols i j =
      clampToUchar (magnitudeOf (Sx input cols i j) (Sy input cols i j)) := by
  unfold sobelPixel
  rw [if_neg (by omega), convolve_eq]

theorem sobelPixel_border (input : List uchar) (rows cols i j : Nat)
    (h : i = 0 ∨ i = rows - 1 ∨ j = 0 ∨ j = cols - 1) (hi : i < rows) (hj : j < cols) :
    sobelPixel input rows cols i j = 0 := by
  unfold sobelPixel
  rw [if_pos (by omega)]

theorem magnitudeOf_eq_floor (sx sy : Int) :
    (magnitudeOf sx sy : Int) = ⌊Real.sqrt (((sx ^ 2 + sy ^ 2 : Int) : Real))⌋ := by
  unfold magnitudeOf
  have hnn : (0 : Int) ≤ sx * sx + sy * sy :=
    Int.add_nonneg (mul_self_nonneg sx) (mul_self_nonneg sy)
  have hcast : (((sx ^ 2 + sy ^ 2 : Int) : Real)) = (((sx * sx + sy * sy).toNat : Nat) : Real) := by
    have h1 : (((sx * sx + sy * sy).toNat : Nat) : Int) = sx * sx + sy * sy := Int.toNat_of_nonneg hnn
    have h2 : (((sx * sx + sy * sy).toNat : Nat) : Real) = ((sx * sx + sy * sy : Int) : Real) := by
      rw [← Int.cast_natCast, h1]
    rw [h2]; push_cast; ring
  rw [hcast, Real.floor_real_sqrt_eq_nat_sqrt]

/-! ## applySobelKernel: interior and border samples -/

/-- C4 (as the code has it): at every interior position `(i, j)` of a block of
`rows * cols` samples, `applySobelKernel` stores `min(255, floor(sqrt(Sx^2 + Sy^2)))`,
the square root truncated, not rounded to nearest; `Sx`, `Sy` are the 3x3
neighbourhood sums weighted by the two fixed kernels. -/
theorem sobel_interior_value (input out : List uchar) (rows cols i j : Nat)
    (hout : out.length = rows * cols)
    (hi : 0 < i) (hi2 : i < rows - 1) (hj : 0 < j) (hj2 : j < cols - 1) :
    ∃ v : uchar, (applySobelKernel input out rows cols)[i * cols + j]? = some v ∧
      v.val = min 255 (Nat.sqrt ((Sx input cols i j) ^ 2 + (Sy input cols i j) ^ 2).toNat) ∧
      ((v.val : Nat) : Int) =
        min 255 ⌊Real.sqrt ((((Sx input cols i j) ^ 2 + (Sy input cols i j) ^ 2 : Int)) : Real)⌋ := by
  refine ⟨sobelPixel input rows cols i j,
    applySobelKernel_at input out rows cols hout (by omega) (by omega), ?_, ?_⟩
  · rw [sobelPixel_interior input rows cols i j hi hi2 hj hj2, val_clampToUchar, magnitudeOf,
      pow_two, pow_two]
  · rw [sobelPixel_interior input rows cols i j hi hi2 hj hj2, val_clampToUchar,
      ← magnitudeOf_eq_floor]
    push_cast
    rfl

theorem sobel_interior_value_witness :
    ∃ v : uchar, (applySobelKernel [0, 0, 0, 0, 0, 0, 0, 0, 2] (List.replicate 9 0) 3 3)[1 * 3 + 1]?
        = some v ∧
      v.val = min 255 (Nat.sqrt ((Sx [0, 0, 0, 0, 0, 0, 0, 0, 2] 3 1 1) ^ 2
        + (Sy [0, 0, 0, 0, 0, 0, 0, 0, 2] 3 1 1) ^ 2).toNat) ∧
      ((v.val : Nat) : Int) =
        min 255 ⌊Real.sqrt ((((Sx [0, 0, 0, 0, 0, 0, 0, 0, 2] 3 1 1) ^ 2
          + (Sy [0, 0, 0, 0, 0, 0, 0, 0, 2] 3 1 1) ^ 2 : Int)) : Real)⌋ :=
  sobel_interior_value [0, 0, 0, 0, 0, 0, 0, 0, 2] (List.replicate 9 0) 3 3 1 1
    (by decide) (by decide) (by decide) (by decide) (by decide)

theorem Sx_example : Sx [0, 0, 0, 0, 0, 0, 0, 0, 2] 3 1 1 = 2 := by decide

theorem Sy_example : Sy [0, 0, 0, 0, 0, 0, 0, 0, 2] 3 1 1 = 2 := by decide

theorem sqrt_eight : Nat.sqrt 8 = 2 :=
  (Nat.eq_sqrt.2 ⟨by decide, by decide⟩).symm

theorem round_sqrt_eight : round (Real.sqrt 8) = 3 := by
  rw [round_eq, Int.floor_eq_iff]
  have h1 : (5 / 2 : Real) ≤ Real.sqrt 8 := by
    rw [Real.le_sqrt' (by norm_num)]
    norm_num
  have h2 : Real.sqrt 8 < 7 / 2 := by
    rw [Real.sqrt_lt' (by norm_num)]
    norm_num
  constructor
  · push_cast; linarith
  · push_cast; linarith

theorem sobel_example_stored :
    (applySobelKernel [0, 0, 0, 0, 0, 0, 0, 0, 2] (List.replicate 9 0) 3 3)[1 * 3 + 1]?
      = some 2 := by
  rw [applySobelKernel_at _ _ 3 3 (by decide) (by decide) (by decide),
    sobelPixel_interior _ 3 3 1 1 (by decide) (by decide) (by decide) (by decide),
    Sx_example, Sy_example]
  have hm : magnitudeOf 2 2 = 2 := by
    unfold magnitudeOf
    exact sqrt_eight
  rw [hm]
  rfl

theorem sobel_example_rounded :
    min 255 (round (Real.sqrt ((((Sx [0, 0, 0, 0, 0, 0, 0, 0, 2] 3 1 1) ^ 2
      + (Sy [0, 0, 0, 0, 0, 0, 0, 0, 2] 3 1 1) ^ 2 : Int)) : Real))) = 3 := by
  rw [Sx_example, Sy_example]
  have h8 : (((2 ^ 2 + 2 ^ 2 : Int)) : Real) = 8 := by norm_num
  rw [h8, round_sqrt_eight]
  rfl

/-- C4 fails as stated: on the 3x3 block whose only non-zero sample is the
bottom-right `2`, `Sx = Sy = 2`, and the kernel stores `2 = floor(sqrt 8)` at the
centre `(1, 1)`, while `min(255, round(sqrt(Sx^2 + Sy^2)))` is `3`; so the stored
sample is not the rounded magnitude. -/
theorem sobel_round_counterexample :
    (applySobelKernel [0, 0, 0, 0, 0, 0, 0, 0, 2] (List.replicate 9 0) 3 3)[1 * 3 + 1]?
        = some 2 ∧
      min 255 (round (Real.sqrt ((((Sx [0, 0, 0, 0, 0, 0, 0, 0, 2] 3 1 1) ^ 2
        + (Sy [0, 0, 0, 0, 0, 0, 0, 0, 2] 3 1 1) ^ 2 : Int)) : Real))) = 3 ∧
      ¬ ∃ v : uchar,
        (applySobelKernel [0, 0, 0, 0, 0, 0, 0, 0, 2] (List.replicate 9 0) 3 3)[1 * 3 + 1]?
          = some v ∧
        ((v.val : Nat) : Int) =
          min 255 (round (Real.sqrt ((((Sx [0, 0, 0, 0, 0, 0, 0, 0, 2] 3 1 1) ^ 2
            + (Sy [0, 0, 0, 0, 0, 0, 0, 0, 2] 3 1 1) ^ 2 : Int)) : Real))) := by
  refine ⟨sobel_example_stored, sobel_example_rounded, ?_⟩
  rintro ⟨v, hv, hr⟩
  rw [sobel_example_stored] at hv
  rw [sobel_example_rounded, ← Option.some.inj hv] at hr
  exact absurd hr (by decide)

theorem applySobelKernel_small (input out : List uchar) (rows cols : Nat)
    (hout : out.length = rows * cols) (h : rows ≤ 2 ∨ cols ≤ 2) :
    applySobelKernel input out rows cols = List.replicate (rows * cols) 0 := by
  rw [applySobelKernel_eq input out rows cols hout, List.eq_replicate_iff]
  refine ⟨by simp, ?_⟩
  intro b hb
  obtain ⟨p, hp, rfl⟩ := List.mem_map.1 hb
  have hp2 : p < rows * cols := List.mem_range.1 hp
  have hc : 0 < cols := by
    rcases Nat.eq_zero_or_pos cols with h0 | h0
    · subst h0; simp at hp2
    · exact h0
  have hi : p / cols < rows := by
    apply Nat.div_lt_of_lt_mul
    rw [Nat.mul_comm]; exact hp2
  have hj : p % cols < cols := Nat.mod_lt _ hc
  generalize p / cols = a at hi
  generalize p % cols = b at hj
  exact sobelPixel_border input rows cols a b (by omega) hi hj

/-- C5: on a block of `rows * cols` samples, `applySobelKernel` stores `0` at
every position of the first row, the last row, the first column and the last
column; a block with `rows ≤ 2` or `cols ≤ 2` comes out all zero. -/
theorem sobel_border_zero (input out : List uchar) (rows cols : Nat)
    (hout : out.length = rows * cols) :
    (∀ i j, i < rows → j < cols → (i = 0 ∨ i = rows - 1 ∨ j = 0 ∨ j = cols - 1) →
      (applySobelKernel input out rows cols)[i * cols + j]? = some 0) ∧
    ((rows ≤ 2 ∨ cols ≤ 2) →
      applySobelKernel input out rows cols = List.replicate (rows * cols) 0) := by
  constructor
  · intro i j hi hj hb
    rw [applySobelKernel_at input out rows cols hout hi hj,
      sobelPixel_border input rows cols i j hb hi hj]
  · exact applySobelKernel_small input out rows cols hout

theorem sobel_border_zero_witness :
    (∀ i j, i < 2 → j < 3 → (i = 0 ∨ i = 2 - 1 ∨ j = 0 ∨ j = 3 - 1) →
      (applySobelKernel [9, 8, 7, 6, 5, 4] [1, 1, 1, 1, 1, 1] 2 3)[i * 3 + j]? = some 0) ∧
    ((2 ≤ 2 ∨ 3 ≤ 2) →
      applySobelKernel [9, 8, 7, 6, 5, 4] [1, 1, 1, 1, 1, 1] 2 3 = List.replicate (2 * 3) 0) :=
  sobel_border_zero [9, 8, 7, 6, 5, 4] [1, 1, 1, 1, 1, 1] 2 3 (by decide)

/-! ## applyThresholdKernel: closed form -/

theorem thresholdStep_eq (T : Int) (buf : List uchar) (i : Nat) :
    thresholdStep T buf i = buf.set i (thresholdValue T (buf.getD i 0)) := by
  unfold thresholdStep thresholdValue
  split <;> rfl

theorem length_threshold_fold (T : Int) (l : List Nat) :
    ∀ buf : List uchar, (l.foldl (thresholdStep T) buf).length = buf.length := by
  induction l with
  | nil => intro buf; rfl
  | cons a l ih => intro buf; simp [List.foldl_cons, ih, thresholdStep_eq]

theorem getElem?_threshold_fold (T : Int) (buffer : List uchar) (p : Nat) :
    ∀ n, ((List.range n).foldl (thresholdStep T) buffer)[p]? =
      if p < n then buffer[p]?.map (thresholdValue T) else buffer[p]? := by
  intro n
  induction n generalizing p with
  | zero => simp
  | succ n ih =>
    rw [List.range_succ, List.foldl_append]
    simp only [List.foldl_cons, List.foldl_nil, thresholdStep_eq, List.getElem?_set,
      length_threshold_fold]
    have hn : ((List.range n).foldl (thresholdStep T) buffer).getD n 0 = buffer.getD n 0 := by
      rw [List.getD_eq_getElem?_getD, ih n, if_neg (Nat.lt_irrefl n), List.getD_eq_getElem?_getD]
    rw [hn, ih p]
    by_cases h1 : n = p
    · subst h1
      rw [if_pos rfl, if_pos (Nat.lt_succ_self n)]
      by_cases h2 : n < buffer.length
      · rw [if_pos h2, List.getD_eq_getElem?_getD, List.getElem?_eq_getElem h2]
        rfl
      · rw [if_neg h2, List.getElem?_eq_none_iff.2 (Nat.le_of_not_lt h2)]
        rfl
    · rw [if_neg h1]
      by_cases h2 : p < n
      · rw [if_pos h2, if_pos (by omega)]
      · rw [if_neg h2, if_neg (by omega)]

theorem length_applyThresholdKernel (buffer : List uchar) (size : Nat) (T : Int) :
    (applyThresholdKernel buffer size T).length = buffer.length :=
  length_threshold_fold T _ buffer

/-- On a buffer of `size` samples the kernel maps `thresholdValue` over it. -/
theorem applyThresholdKernel_eq (buffer : List uchar) (size : Nat) (T : Int)
    (hsize : buffer.length = size) :
    applyThresholdKernel buffer size T = buffer.map (thresholdValue T) := by
  apply List.ext_getElem?
  intro p
  unfold applyThresholdKernel
  rw [getElem?_threshold_fold, List.getElem?_map]
  by_cases hp : p < size
  · rw [if_pos hp]
  · rw [if_neg hp, List.getElem?_eq_none_iff.2 (by omega)]
    rfl

/-- C8: on a buffer of `size` samples, `applyThresholdKernel` keeps the length
and replaces each sample `v` by `255` if `v > T` and by `0` otherwise, so every
output sample is `0` or `255`. -/
theorem threshold_binary (buffer : List uchar) (size : Nat) (T : Int)
    (hsize : buffer.length = size) :
    (applyThresholdKernel buffer size T).length = size ∧
    applyThresholdKernel buffer size T =
      buffer.map (fun v => if ((v.val : Nat) : Int) > T then (255 : uchar) else 0) ∧
    (∀ w, w ∈ applyThresholdKernel buffer size T → w = 0 ∨ w = 255) := by
  refine ⟨?_, ?_, ?_⟩
  · rw [length_applyThresholdKernel, hsize]
  · rw [applyThresholdKernel_eq buffer size T hsize]
    rfl
  · intro w hw
    rw [applyThresholdKernel_eq buffer size T hsize] at hw
    obtain ⟨v, _, rfl⟩ := List.mem_map.1 hw
    unfold thresholdValue
    split
    · exact Or.inr rfl
    · exact Or.inl rfl

theorem threshold_binary_witness :
    (applyThresholdKernel [0, 100, 101, 255] 4 100).length = 4 ∧
    applyThresholdKernel [0, 100, 101, 255] 4 100 =
      ([0, 100, 101, 255] : List uchar).map (fun v => if ((v.val : Nat) : Int) > 100 then (255 : uchar) else 0) ∧
    (∀ w, w ∈ applyThresholdKernel [0, 100, 101, 255] 4 100 → w = 0 ∨ w = 255) :=
  threshold_binary [0, 100, 101, 255] 4 100 (by decide)

/-! ## The local stages and the gathered buffers -/

theorem length_localGradient (full : List uchar) (R C N i : Nat) :
    (localGradient full R C N i).length = myDataSize R C N i := by
  unfold localGradient
  rw [length_applySobelKernel]
  simp

theorem localResult_eq (full : List uchar) (R C N i : Nat) :
    localResult full R C N i = (localGradient full R C N i).map (thresholdValue 100) := by
  unfold localResult
  exact applyThresholdKernel_eq _ _ 100 (length_localGradient full R C N i)

theorem length_localResult (full : List uchar) (R C N i : Nat) :
    (localResult full R C N i).length = myDataSize R C N i := by
  rw [localResult_eq, List.length_map, length_localGradient]

theorem gatheredGradient_eq (full : List uchar) (R C N : Nat) (hN : 1 ≤ N) :
    gatheredGradient full R C N = ((List.range N).map (localGradient full R C N)).flatten :=
  gatherBlocks_eq_flatten _ R C N hN
    (fun i hi => by rw [length_localGradient, myDataSize_eq R C N hi])

theorem finalImageBuffer_eq (full : List uchar) (R C N : Nat) (hN : 1 ≤ N) :
    finalImageBuffer full R C N = ((List.range N).map (localResult full R C N)).flatten :=
  gatherBlocks_eq_flatten _ R C N hN
    (fun i hi => by rw [length_localResult, myDataSize_eq R C N hi])

theorem gatheredGradient_at (full : List uchar) (R C N : Nat) (hN : 1 ≤ N) {i q : Nat}
    (hi : i < N) (hq : q < rowCount R N i * C) :
    (gatheredGradient full R C N)[rowStart R N i * C + q]? = (localGradient full R C N i)[q]? := by
  rw [gatheredGradient_eq full R C N hN]
  exact getElem?_flatten_blocks _ R C N
    (fun i hi => by rw [length_localGradient, myDataSize_eq R C N hi]) N (Nat.le_refl _) i q hi hq

theorem finalImageBuffer_at (full : List uchar) (R C N : Nat) (hN : 1 ≤ N) {i q : Nat}
    (hi : i < N) (hq : q < rowCount R N i * C) :
    (finalImageBuffer full R C N)[rowStart R N i * C + q]? = (localResult full R C N i)[q]? := by
  rw [finalImageBuffer_eq full R C N hN]
  exact getElem?_flatten_blocks _ R C N
    (fun i hi => by rw [length_localResult, myDataSize_eq R C N hi]) N (Nat.le_refl _) i q hi hq

theorem localGradient_at (full : List uchar) (R C N : Nat) (hC : 1 ≤ C) {i a j : Nat}
    (hi : i < N) (ha : a < rowCount R N i) (hj : j < C) :
    (localGradient full R C N i)[a * C + j]? =
      some (sobelPixel (localBuffer full R C N i) (rowCount R N i) C a j) := by
  unfold localGradient
  rw [myRows_eq R C N hC hi, myDataSize_eq R C N hi]
  exact applySobelKernel_at _ _ _ _ (by simp) ha hj

theorem thresholdValue_zero : thresholdValue 100 0 = 0 := by decide

/-- A border sample of block `i` is `0` in both gathered buffers. -/
theorem gathered_border_zero (full : List uchar) (R C N : Nat) (hN : 1 ≤ N) (hC : 1 ≤ C)
    {i a j : Nat} (hi : i < N) (ha : a < rowCount R N i) (hj : j < C)
    (hb : a = 0 ∨ a = rowCount R N i - 1 ∨ j = 0 ∨ j = C - 1) :
    (gatheredGradient full R C N)[rowStart R N i * C + (a * C + j)]? = some 0 ∧
    (finalImageBuffer full R C N)[rowStart R N i * C + (a * C + j)]? = some 0 := by
  have hq : a * C + j < rowCount R N i * C := index_lt ha hj
  have hg := localGradient_at full R C N hC hi ha hj
  rw [sobelPixel_border _ _ _ a j hb ha hj] at hg
  constructor
  · rw [gatheredGradient_at full R C N hN hi hq, hg]
  · rw [finalImageBuffer_at full R C N hN hi hq, localResult_eq, List.getElem?_map, hg]
    rfl

/-! ## Partition seams -/

/-- C6: for `N > 1`, in the buffer gathered at the coordinator the last row of
a non-empty block `i` and the first row of a later non-empty block `k` (the two
rows next to a partition seam) hold `0` in every column, in the gradient output
and after thresholding with cutoff `100`. The positions are written with the
entries of the table of `main`. -/
theorem seam_rows_zero (full : List uchar) (R C N : Nat) (hN : 1 < N) (hC : 1 ≤ C)
    (i k : Nat) (hik : i < k) (hk : k < N)
    (hi1 : 1 ≤ myRows R C N i) (hk1 : 1 ≤ myRows R C N k) (j : Nat) (hj : j < C) :
    (gatheredGradient full R C N)[(partitionTable R C N).displacements.getD i 0
        + ((myRows R C N i - 1) * C + j)]? = some 0 ∧
    (gatheredGradient full R C N)[(partitionTable R C N).displacements.getD k 0 + j]? = some 0 ∧
    (finalImageBuffer full R C N)[(partitionTable R C N).displacements.getD i 0
        + ((myRows R C N i - 1) * C + j)]? = some 0 ∧
    (finalImageBuffer full R C N)[(partitionTable R C N).displacements.getD k 0 + j]? = some 0 := by
  have hi : i < N := by omega
  rw [myRows_eq R C N hC hi] at hi1 ⊢
  rw [myRows_eq R C N hC hk] at hk1
  rw [displacements_getD R C N hi, displacements_getD R C N hk]
  have h1 := gathered_border_zero full R C N (by omega) hC hi
    (by omega : rowCount R N i - 1 < rowCount R N i) hj (Or.inr (Or.inl rfl))
  have h2 := gathered_border_zero full R C N (by omega) hC hk
    (by omega : 0 < rowCount R N k) hj (Or.inl rfl)
  rw [Nat.zero_mul, Nat.zero_add] at h2
  exact ⟨h1.1, h2.1, h1.2, h2.2⟩

theorem seam_rows_zero_witness :
    (gatheredGradient [1, 2, 3, 4, 5, 6, 7, 8, 9, 10, 11, 12] 4 3 2)[
        (partitionTable 4 3 2).displacements.getD 0 0 + ((myRows 4 3 2 0 - 1) * 3 + 1)]? = some 0 ∧
    (gatheredGradient [1, 2, 3, 4, 5, 6, 7, 8, 9, 10, 11, 12] 4 3 2)[
        (partitionTable 4 3 2).displacements.getD 1 0 + 1]? = some 0 ∧
    (finalImageBuffer [1, 2, 3, 4, 5, 6, 7, 8, 9, 10, 11, 12] 4 3 2)[
        (partitionTable 4 3 2).displacements.getD 0 0 + ((myRows 4 3 2 0 - 1) * 3 + 1)]? = some 0 ∧
    (finalImageBuffer [1, 2, 3, 4, 5, 6, 7, 8, 9, 10, 11, 12] 4 3 2)[
        (partitionTable 4 3 2).displacements.getD 1 0 + 1]? = some 0 :=
  seam_rows_zero [1, 2, 3, 4, 5, 6, 7, 8, 9, 10, 11, 12] 4 3 2 (by decide) (by decide) 0 1
    (by decide) (by decide) (by decide) (by decide) 1 (by decide)

/-! ## A single participant -/

theorem rowCount_one (R : Nat) : rowCount R 1 0 = R := by
  simp [rowCount, Nat.mod_one]

/-- C7: with `N = 1` the distributed pipeline stores in `finalImageBuffer`
exactly what `applySobelKernel` followed by `applyThresholdKernel` (cutoff `100`)
gives on the whole image as one block, whatever the output buffer of `R * C`
samples held before. -/
theorem single_participant_identical (full out : List uchar) (R C : Nat) (hC : 1 ≤ C)
    (hfull : full.length = R * C) (hout : out.length = R * C) :
    finalImageBuffer full R C 1 =
      applyThresholdKernel (applySobelKernel full out R C) (R * C) 100 := by
  rw [finalImageBuffer_eq full R C 1 (Nat.le_refl _)]
  have hb : localBuffer full R C 1 0 = full := by
    rw [localBuffer_eq full R C 1 (Nat.le_refl _) hfull Nat.zero_lt_one, rowStart_zero,
      rowCount_one, Nat.zero_mul, List.drop_zero, ← hfull, List.take_length]
  have hl : localResult full R C 1 0 =
      applyThresholdKernel (applySobelKernel full out R C) (R * C) 100 := by
    unfold localResult localGradient
    rw [hb, myDataSize_eq R C 1 Nat.zero_lt_one, myRows_eq R C 1 hC Nat.zero_lt_one, rowCount_one,
      applySobelKernel_eq full _ R C (by simp), applySobelKernel_eq full out R C hout]
  rw [show List.range 1 = [0] from rfl]
  simp only [List.map_cons, List.map_nil, List.flatten_cons, List.flatten_nil, List.append_nil, hl]

theorem single_participant_identical_witness :
    finalImageBuffer [0, 0, 0, 0, 0, 0, 0, 0, 200] 3 3 1 =
      applyThresholdKernel
        (applySobelKernel [0, 0, 0, 0, 0, 0, 0, 0, 200] [5, 5, 5, 5, 5, 5, 5, 5, 5] 3 3)
        (3 * 3) 100 :=
  single_participant_identical [0, 0, 0, 0, 0, 0, 0, 0, 200] [5, 5, 5, 5, 5, 5, 5, 5, 5] 3 3
    (by decide) (by decide) (by decide)

/-! ## Uniform images -/

theorem index_bounds (rows C A B : Int) (hA0 : 0 ≤ A) (hA1 : A + 1 ≤ rows) (hB0 : 0 ≤ B)
    (hB1 : B + 1 ≤ C) : 0 ≤ A * C + B ∧ A * C + B < rows * C := by
  have hC : 0 ≤ C := by omega
  constructor
  · exact Int.add_nonneg (Int.mul_nonneg hA0 hC) hB0
  · have h1 : (A + 1) * C ≤ rows * C := Int.mul_le_mul_of_nonneg_right hA1 hC
    have h2 : (A + 1) * C = A * C + C := by ring
    omega

theorem readAt_replicate (n : Nat) (v : uchar) (idx : Int) (h0 : 0 ≤ idx) (h1 : idx < n) :
    readAt (List.replicate n v) idx = v := by
  unfold readAt
  rw [if_pos h0, List.getD_eq_getElem?_getD, List.getElem?_replicate, if_pos (by omega)]
  rfl

theorem neighbour_uniform (rows C : Nat) (v : uchar) (a j : Nat) (di dj : Int)
    (ha : 0 < a) (ha2 : a < rows - 1) (hj : 0 < j) (hj2 : j < C - 1)
    (hdi : -1 ≤ di ∧ di ≤ 1) (hdj : -1 ≤ dj ∧ dj ≤ 1) :
    neighbour (List.replicate (rows * C) v) C a j di dj = (v.val : Int) := by
  unfold neighbour
  have hb := index_bounds rows C ((a : Int) + di) ((j : Int) + dj) (by omega) (by omega)
    (by omega) (by omega)
  rw [readAt_replicate _ v _ hb.1 (by push_cast; exact hb.2)]

theorem Sx_uniform (rows C : Nat) (v : uchar) (a j : Nat)
    (ha : 0 < a) (ha2 : a < rows - 1) (hj : 0 < j) (hj2 : j < C - 1) :
    Sx (List.replicate (rows * C) v) C a j = 0 := by
  have nb := fun di dj hdi hdj => neighbour_uniform rows C v a j di dj ha ha2 hj hj2 hdi hdj
  unfold Sx
  rw [nb (-1) (-1) (by decide) (by decide), nb (-1) 0 (by decide) (by decide),
    nb (-1) 1 (by decide) (by decide), nb 0 (-1) (by decide) (by decide),
    nb 0 0 (by decide) (by decide), nb 0 1 (by decide) (by decide),
    nb 1 (-1) (by decide) (by decide), nb 1 0 (by decide) (by decide),
    nb 1 1 (by decide) (by decide)]
  ring

theorem Sy_uniform (rows C : Nat) (v : uchar) (a j : Nat)
    (ha : 0 < a) (ha2 : a < rows - 1) (hj : 0 < j) (hj2 : j < C - 1) :
    Sy (List.replicate (rows * C) v) C a j = 0 := by
  have nb := fun di dj hdi hdj => neighbour_uniform rows C v a j di dj ha ha2 hj hj2 hdi hdj
  unfold Sy
  rw [nb (-1) (-1) (by decide) (by decide), nb (-1) 0 (by decide) (by decide),
    nb (-1) 1 (by decide) (by decide), nb 0 (-1) (by decide) (by decide),
    nb 0 0 (by decide) (by decide), nb 0 1 (by decide) (by decide),
    nb 1 (-1) (by decide) (by decide), nb 1 0 (by decide) (by decide),
    nb 1 1 (by decide) (by decide)]
  ring

theorem magnitudeOf_zero : clampToUchar (magnitudeOf 0 0) = 0 := by
  have h : magnitudeOf 0 0 = 0 := by simp [magnitudeOf]
  rw [h]
  rfl

theorem sobelPixel_uniform (rows C : Nat) (v : uchar) (a j : Nat) (ha : a < rows) (hj : j < C) :
    sobelPixel (List.replicate (rows * C) v) rows C a j = 0 := by
  by_cases hb : a = 0 ∨ a = rows - 1 ∨ j = 0 ∨ j = C - 1
  · exact sobelPixel_border _ rows C a j hb ha hj
  · rw [sobelPixel_interior _ rows C a j (by omega) (by omega) (by omega) (by omega),
      Sx_uniform rows C v a j (by omega) (by omega) (by omega) (by omega),
      Sy_uniform rows C v a j (by omega) (by omega) (by omega) (by omega), magnitudeOf_zero]

theorem applySobelKernel_uniform (rows C : Nat) (v : uchar) (out : List uchar)
    (hout : out.length = rows * C) :
    applySobelKernel (List.replicate (rows * C) v) out rows C = List.replicate (rows * C) 0 := by
  rw [applySobelKernel_eq _ out rows C hout, List.eq_replicate_iff]
  refine ⟨by simp, ?_⟩
  intro b hb
  obtain ⟨p, hp, rfl⟩ := List.mem_map.1 hb
  have hp2 : p < rows * C := List.mem_range.1 hp
  have hc : 0 < C := by
    rcases Nat.eq_zero_or_pos C with h0 | h0
    · subst h0; simp at hp2
    · exact h0
  have hi : p / C < rows := by
    apply Nat.div_lt_of_lt_mul
    rw [Nat.mul_comm]; exact hp2
  exact sobelPixel_uniform rows C v _ _ hi (Nat.mod_lt _ hc)

theorem localBuffer_uniform (R C N : Nat) (v : uchar) (hN : 1 ≤ N) {i : Nat} (hi : i < N) :
    localBuffer (List.replicate (R * C) v) R C N i = List.replicate (rowCount R N i * C) v := by
  rw [localBuffer_eq _ R C N hN (by simp) hi, List.drop_replicate, List.take_replicate]
  have h := slice_in_range R C N hi
  rw [rowStart_size R N hN] at h
  rw [Nat.min_eq_left (by omega)]

theorem localGradient_uniform (R C N : Nat) (v : uchar) (hN : 1 ≤ N) (hC : 1 ≤ C) {i : Nat}
    (hi : i < N) :
    localGradient (List.replicate (R * C) v) R C N i = List.replicate (rowCount R N i * C) 0 := by
  unfold localGradient
  rw [localBuffer_uniform R C N v hN hi, myRows_eq R C N hC hi, myDataSize_eq R C N hi]
  exact applySobelKernel_uniform _ C v _ (by simp)

theorem flatten_zero_blocks (blocks : Nat → List uchar) (R C N : Nat) (hN : 1 ≤ N)
    (hz : ∀ i, i < N → blocks i = List.replicate (rowCount R N i * C) 0) :
    ((List.range N).map blocks).flatten = List.replicate (R * C) 0 := by
  rw [List.eq_replicate_iff]
  constructor
  · rw [length_flatten_blocks blocks R C N (fun i hi => by rw [hz i hi]; simp) N (Nat.le_refl _),
      rowStart_size R N hN]
  · intro b hb
    obtain ⟨l, hl, hbl⟩ := List.mem_flatten.1 hb
    obtain ⟨i, hi, rfl⟩ := List.mem_map.1 hl
    rw [hz i (List.mem_range.1 hi)] at hbl
    exact (List.mem_replicate.1 hbl).2

theorem uniform_gathered (R C N : Nat) (v : uchar) (hN : 1 ≤ N) (hC : 1 ≤ C) :
    gatheredGradient (List.replicate (R * C) v) R C N = List.replicate (R * C) 0 ∧
    finalImageBuffer (List.replicate (R * C) v) R C N = List.replicate (R * C) 0 := by
  constructor
  · rw [gatheredGradient_eq _ R C N hN]
    exact flatten_zero_blocks _ R C N hN (fun i hi => localGradient_uniform R C N v hN hC hi)
  · rw [finalImageBuffer_eq _ R C N hN]
    apply flatten_zero_blocks _ R C N hN
    intro i hi
    rw [localResult_eq, localGradient_uniform R C N v hN hC hi, List.map_replicate,
      thresholdValue_zero]

/-- C9: for a uniform image (all `R * C` samples equal to `v`) and every
participant count `N ≥ 1`, the gathered gradient output is all zero and the
gathered thresholded output (cutoff `100`) is all zero, whatever `N` is; the
4x4 image of value `128` with `N = 2`, two rows each, is the concrete case. -/
theorem uniform_image_all_zero (R C N : Nat) (v : uchar) (hN : 1 ≤ N) (hC : 1 ≤ C) :
    (gatheredGradient (List.replicate (R * C) v) R C N = List.replicate (R * C) 0 ∧
      finalImageBuffer (List.replicate (R * C) v) R C N = List.replicate (R * C) 0) ∧
    (rowCounts 4 2 = [2, 2] ∧
      gatheredGradient (List.replicate 16 128) 4 4 2 = List.replicate 16 0 ∧
      finalImageBuffer (List.replicate 16 128) 4 4 2 = List.replicate 16 0) :=
  ⟨uniform_gathered R C N v hN hC, by decide, uniform_gathered 4 4 2 128 (by decide) (by decide)⟩

theorem uniform_image_all_zero_witness :
    (gatheredGradient (List.replicate (5 * 4) 77) 5 4 3 = List.replicate (5 * 4) 0 ∧
      finalImageBuffer (List.replicate (5 * 4) 77) 5 4 3 = List.replicate (5 * 4) 0) ∧
    (rowCounts 4 2 = [2, 2] ∧
      gatheredGradient (List.replicate 16 128) 4 4 2 = List.replicate 16 0 ∧
      finalImageBuffer (List.replicate 16 128) 4 4 2 = List.replicate 16 0) :=
  uniform_image_all_zero 5 4 3 77 (by decide) (by decide)

/-! ## Degenerate partitions: more participants than rows -/

theorem rowCount_degenerate (R N i : Nat) (hRN : R < N) :
    rowCount R N i = if i < R then 1 else 0 := by
  unfold rowCount
  rw [Nat.div_eq_of_lt hRN, Nat.mod_eq_of_lt hRN, Nat.zero_add]

theorem rowStart_degenerate (R N i : Nat) (hRN : R < N) (hi : i ≤ R) : rowStart R N i = i := by
  unfold rowStart
  rw [Nat.div_eq_of_lt hRN, Nat.mod_eq_of_lt hRN, Nat.mul_zero, Nat.zero_add,
    Nat.min_eq_left hi]

theorem flatten_trailing_empty (blocks : Nat → List uchar) (R N : Nat)
    (he : ∀ i, R ≤ i → i < N → blocks i = []) :
    ∀ k, R ≤ k → k ≤ N →
      ((List.range k).map blocks).flatten = ((List.range R).map blocks).flatten := by
  intro k hk
  induction k, hk using Nat.le_induction with
  | base => intro _; rfl
  | succ k hRk ih =>
    intro hkN
    rw [List.range_succ, List.map_append, List.flatten_append, ih (by omega)]
    simp [he k hRk (by omega)]

theorem applySobelKernel_no_rows (input out : List uchar) (cols : Nat) :
    applySobelKernel input out 0 cols = out := rfl

theorem applyThresholdKernel_size_zero (buf : List uchar) (T : Int) :
    applyThresholdKernel buf 0 T = buf := rfl

/-- C10: when `R < N`, each participant `i < R` gets exactly one row (the `C`
samples of row `i`) and each participant `i ≥ R` gets zero rows and zero
samples; with zero rows `applySobelKernel` leaves the output buffer as it is,
with size zero `applyThresholdKernel` leaves the buffer as it is; the gathered
result has `R * C` samples, all of them from the participants `i < R`. -/
theorem degenerate_partition (full : List uchar) (R C N : Nat) (hRN : R < N) (hC : 1 ≤ C)
    (hfull : full.length = R * C) :
    (∀ i, i < R → myRows R C N i = 1 ∧ myDataSize R C N i = C ∧
      localBuffer full R C N i = (full.drop (i * C)).take C) ∧
    (∀ i, R ≤ i → i < N → myRows R C N i = 0 ∧ myDataSize R C N i = 0 ∧
      localBuffer full R C N i = [] ∧ localResult full R C N i = []) ∧
    (∀ input out : List uchar, applySobelKernel input out 0 C = out) ∧
    (∀ (buf : List uchar) (T : Int), applyThresholdKernel buf 0 T = buf) ∧
    (finalImageBuffer full R C N).length = R * C ∧
    finalImageBuffer full R C N = ((List.range R).map (localResult full R C N)).flatten := by
  have hN : 1 ≤ N := by omega
  have hempty : ∀ i, R ≤ i → i < N → localResult full R C N i = [] := by
    intro i h1 h2
    apply List.eq_nil_of_length_eq_zero
    rw [length_localResult, myDataSize_eq R C N h2, rowCount_degenerate R N i hRN,
      if_neg (by omega), Nat.zero_mul]
  refine ⟨?_, ?_, ?_, ?_, ?_, ?_⟩
  · intro i hi
    have hiN : i < N := by omega
    refine ⟨?_, ?_, ?_⟩
    · rw [myRows_eq R C N hC hiN, rowCount_degenerate R N i hRN, if_pos hi]
    · rw [myDataSize_eq R C N hiN, rowCount_degenerate R N i hRN, if_pos hi, Nat.one_mul]
    · rw [localBuffer_eq full R C N hN hfull hiN, rowCount_degenerate R N i hRN, if_pos hi,
        rowStart_degenerate R N i hRN (by omega), Nat.one_mul]
  · intro i h1 h2
    refine ⟨?_, ?_, ?_, hempty i h1 h2⟩
    · rw [myRows_eq R C N hC h2, rowCount_degenerate R N i hRN, if_neg (by omega)]
    · rw [myDataSize_eq R C N h2, rowCount_degenerate R N i hRN, if_neg (by omega),
        Nat.zero_mul]
    · apply List.eq_nil_of_length_eq_zero
      rw [length_localBuffer, myDataSize_eq R C N h2, rowCount_degenerate R N i hRN,
        if_neg (by omega), Nat.zero_mul]
  · intro input out; exact applySobelKernel_no_rows input out C
  · intro buf T; exact applyThresholdKernel_size_zero buf T
  · rw [finalImageBuffer_eq full R C N hN,
      length_flatten_blocks _ R C N
        (fun i hi => by rw [length_localResult, myDataSize_eq R C N hi]) N (Nat.le_refl _),
      rowStart_size R N hN]
  · rw [finalImageBuffer_eq full R C N hN]
    exact flatten_trailing_empty _ R N hempty N (by omega) (Nat.le_refl _)

theorem degenerate_partition_witness :
    (∀ i, i < 2 → myRows 2 2 4 i = 1 ∧ myDataSize 2 2 4 i = 2 ∧
      localBuffer [1, 2, 3, 4] 2 2 4 i = (([1, 2, 3, 4] : List uchar).drop (i * 2)).take 2) ∧
    (∀ i, 2 ≤ i → i < 4 → myRows 2 2 4 i = 0 ∧ myDataSize 2 2 4 i = 0 ∧
      localBuffer [1, 2, 3, 4] 2 2 4 i = [] ∧ localResult [1, 2, 3, 4] 2 2 4 i = []) ∧
    (∀ input out : List uchar, applySobelKernel input out 0 2 = out) ∧
    (∀ (buf : List uchar) (T : Int), applyThresholdKernel buf 0 T = buf) ∧
    (finalImageBuffer [1, 2, 3, 4] 2 2 4).length = 2 * 2 ∧
    finalImageBuffer [1, 2, 3, 4] 2 2 4 =
      ((List.range 2).map (localResult [1, 2, 3, 4] 2 2 4)).flatten :=
  degenerate_partition [1, 2, 3, 4] 2 2 4 (by decide) (by decide) (by decide)

/-! ## Local block shape -/

/-- C12: for every `C ≥ 1` and every rank below `N`, the row count passed to the
kernel, `myRows = sendCounts[rank] / imgCols`, is
`floor(R / N) + (1 if rank < R mod N else 0)`, and `localBuffer` and `localResult`
(after the Sobel stage and after the threshold stage) have `myRows * imgCols`
samples. -/
theorem local_block_shape (full : List uchar) (R C N rank : Nat) (hC : 1 ≤ C)
    (hrank : rank < N) :
    myRows R C N rank = R / N + (if rank < R % N then 1 else 0) ∧
    (localBuffer full R C N rank).length = myRows R C N rank * C ∧
    (localGradient full R C N rank).length = myRows R C N rank * C ∧
    (localResult full R C N rank).length = myRows R C N rank * C := by
  have hrows := myRows_eq R C N hC hrank
  have hsize := myDataSize_eq R C N hrank
  refine ⟨?_, ?_, ?_, ?_⟩
  · rw [hrows]; rfl
  · rw [length_localBuffer, hsize, hrows]
  · rw [length_localGradient, hsize, hrows]
  · rw [length_localResult, hsize, hrows]

theorem local_block_shape_witness :
    myRows 10 3 4 1 = 10 / 4 + (if 1 < 10 % 4 then 1 else 0) ∧
    (localBuffer (List.replicate 30 7) 10 3 4 1).length = myRows 10 3 4 1 * 3 ∧
    (localGradient (List.replicate 30 7) 10 3 4 1).length = myRows 10 3 4 1 * 3 ∧
    (localResult (List.replicate 30 7) 10 3 4 1).length = myRows 10 3 4 1 * 3 :=
  local_block_shape (List.replicate 30 7) 10 3 4 1 (by decide) (by decide)

/-! ## Seam divergence -/

theorem Sx_seam_example : Sx [0, 0, 0, 0, 0, 1, 0, 0, 0, 0, 0, 0] 3 1 1 = 2 := by decide

theorem Sy_seam_example : Sy [0, 0, 0, 0, 0, 1, 0, 0, 0, 0, 0, 0] 3 1 1 = 0 := by decide

theorem sqrt_four : Nat.sqrt 4 = 2 :=
  (Nat.eq_sqrt.2 ⟨by decide, by decide⟩).symm

theorem seam_example_single_block :
    (applySobelKernel [0, 0, 0, 0, 0, 1, 0, 0, 0, 0, 0, 0] (List.replicate 12 0) 4 3)[4]?
      = some 2 := by
  have h := applySobelKernel_at [0, 0, 0, 0, 0, 1, 0, 0, 0, 0, 0, 0] (List.replicate 12 0) 4 3
    (by decide) (i := 1) (j := 1) (by decide) (by decide)
  rw [sobelPixel_interior _ 4 3 1 1 (by decide) (by decide) (by decide) (by decide),
    Sx_seam_example, Sy_seam_example] at h
  have hm : magnitudeOf 2 0 = 2 := by
    unfold magnitudeOf
    exact sqrt_four
  rw [hm] at h
  exact h

theorem seam_example_partitioned :
    (gatheredGradient [0, 0, 0, 0, 0, 1, 0, 0, 0, 0, 0, 0] 4 3 2)[4]? = some 0 := by
  decide

/-- C13: on the 4x3 image whose only non-zero sample is a `1` at row 1, column 2,
with `N = 2` (two rows each), position 4 (row 1, column 1) lies in the last row
of block 0, next to the seam; there the single-block `applySobelKernel` run gives
`2` while the gathered partitioned gradient gives `0`, so the two outputs differ. -/
theorem seam_divergence_exists :
    myRows 4 3 2 0 = 2 ∧ myRows 4 3 2 1 = 2 ∧
    (partitionTable 4 3 2).displacements.getD 0 0 + ((myRows 4 3 2 0 - 1) * 3 + 1) = 4 ∧
    (applySobelKernel [0, 0, 0, 0, 0, 1, 0, 0, 0, 0, 0, 0] (List.replicate 12 0) 4 3)[4]?
      = some 2 ∧
    (gatheredGradient [0, 0, 0, 0, 0, 1, 0, 0, 0, 0, 0, 0] 4 3 2)[4]? = some 0 ∧
    gatheredGradient [0, 0, 0, 0, 0, 1, 0, 0, 0, 0, 0, 0] 4 3 2 ≠
      applySobelKernel [0, 0, 0, 0, 0, 1, 0, 0, 0, 0, 0, 0] (List.replicate 12 0) 4 3 := by
  refine ⟨by decide, by decide, by decide, seam_example_single_block,
    seam_example_partitioned, ?_⟩
  intro h
  have h1 := seam_example_partitioned
  rw [h, seam_example_single_block] at h1
  exact absurd (Option.some.inj h1) (by decide)

/-! ## Thresholding and partitioning -/

theorem map_flatten_blocks (blocks : Nat → List uchar) (f : uchar → uchar) (l : List Nat) :
    ((l.map (fun i => (blocks i).map f))).flatten = ((l.map blocks).flatten).map f := by
  induction l with
  | nil => rfl
  | cons a l ih => simp [ih]

theorem threshold_blocks_flatten (T : Int) (blocks : List (List uchar)) :
    (blocks.map (fun b => applyThresholdKernel b b.length T)).flatten =
      applyThresholdKernel blocks.flatten blocks.flatten.length T := by
  rw [applyThresholdKernel_eq _ _ T rfl]
  induction blocks with
  | nil => rfl
  | cons b bs ih =>
    simp only [List.map_cons, List.flatten_cons, List.map_append, ih]
    rw [applyThresholdKernel_eq b _ T rfl]

theorem threshold_gatherBlocks (T : Int) (blocks : Nat → List uchar) (R C N : Nat)
    (hN : 1 ≤ N) (hlen : ∀ i, i < N → (blocks i).length = rowCount R N i * C) :
    gatherBlocks (fun i => applyThresholdKernel (blocks i) (myDataSize R C N i) T) R C N =
      applyThresholdKernel (gatherBlocks blocks R C N) (R * C) T := by
  have hb : ∀ i, i < N →
      applyThresholdKernel (blocks i) (myDataSize R C N i) T = (blocks i).map (thresholdValue T) :=
    fun i hi => applyThresholdKernel_eq _ _ T (by rw [hlen i hi, myDataSize_eq R C N hi])
  rw [gatherBlocks_eq_flatten _ R C N hN (fun i hi => by rw [hb i hi, List.length_map, hlen i hi]),
    gatherBlocks_eq_flatten blocks R C N hN hlen]
  have hlenAll := length_flatten_blocks blocks R C N hlen N (Nat.le_refl _)
  rw [rowStart_size R N hN] at hlenAll
  rw [applyThresholdKernel_eq _ _ T hlenAll, ← map_flatten_blocks]
  congr 1
  apply List.map_congr_left
  intro i hi
  exact hb i (List.mem_range.1 hi)

/-- C17: thresholding commutes with partitioning. For every cutoff `T` and every
list of consecutive blocks, thresholding each block and concatenating equals
thresholding the concatenation; and with the partition plan of `main`, for
blocks of the planned lengths, gathering the thresholded blocks at the plan's
offsets equals thresholding the gathered buffer. In particular
`finalImageBuffer` is the thresholded gathered gradient. -/
theorem threshold_commutes_with_partition (T : Int) :
    (∀ blocks : List (List uchar),
      (blocks.map (fun b => applyThresholdKernel b b.length T)).flatten =
        applyThresholdKernel blocks.flatten blocks.flatten.length T) ∧
    (∀ (blocks : Nat → List uchar) (R C N : Nat), 1 ≤ N →
      (∀ i, i < N → (blocks i).length = rowCount R N i * C) →
      gatherBlocks (fun i => applyThresholdKernel (blocks i) (myDataSize R C N i) T) R C N =
        applyThresholdKernel (gatherBlocks blocks R C N) (R * C) T) ∧
    (∀ (full : List uchar) (R C N : Nat), 1 ≤ N →
      finalImageBuffer full R C N =
        applyThresholdKernel (gatheredGradient full R C N) (R * C) 100) := by
  refine ⟨threshold_blocks_flatten T, ?_, ?_⟩
  · intro blocks R C N hN hlen
    exact threshold_gatherBlocks T blocks R C N hN hlen
  · intro full R C N hN
    exact threshold_gatherBlocks 100 (localGradient full R C N) R C N hN
      (fun i hi => by rw [length_localGradient, myDataSize_eq R C N hi])

theorem threshold_commutes_with_partition_witness :
    ([[3, 200], [], [101, 100, 7]].map
        (fun b : List uchar => applyThresholdKernel b b.length 100)).flatten =
      applyThresholdKernel ([[3, 200], [], [101, 100, 7]] : List (List uchar)).flatten
        ([[3, 200], [], [101, 100, 7]] : List (List uchar)).flatten.length 100 ∧
    gatherBlocks (fun i => applyThresholdKernel
        (localBuffer [1, 200, 3, 150, 5, 6] 3 2 2 i) (myDataSize 3 2 2 i) 100) 3 2 2 =
      applyThresholdKernel (gatherBlocks (localBuffer [1, 200, 3, 150, 5, 6] 3 2 2) 3 2 2)
        (3 * 2) 100 ∧
    finalImageBuffer [1, 200, 3, 150, 5, 6] 3 2 2 =
      applyThresholdKernel (gatheredGradient [1, 200, 3, 150, 5, 6] 3 2 2) (3 * 2) 100 :=
  ⟨(threshold_commutes_with_partition 100).1 [[3, 200], [], [101, 100, 7]],
    (threshold_commutes_with_partition 100).2.1 (localBuffer [1, 200, 3, 150, 5, 6] 3 2 2) 3 2 2
      (by decide) (by decide),
    (threshold_commutes_with_partition 100).2.2 [1, 200, 3, 150, 5, 6] 3 2 2 (by decide)⟩

/-! ## Ranges of the convolution sums -/

theorem neighbour_range (input : List uchar) (cols i j : Nat) (di dj : Int) :
    0 ≤ neighbour input cols i j di dj ∧ neighbour input cols i j di dj ≤ 255 := by
  unfold neighbour
  have h := (readAt input (((i : Int) + di) * (cols : Int) + ((j : Int) + dj))).isLt
  omega

theorem Sx_range (input : List uchar) (cols i j : Nat) :
    -1020 ≤ Sx input cols i j ∧ Sx input cols i j ≤ 1020 := by
  unfold Sx
  have h1 := neighbour_range input cols i j (-1) (-1)
  have h2 := neighbour_range input cols i j (-1) 1
  have h3 := neighbour_range input cols i j 0 (-1)
  have h4 := neighbour_range input cols i j 0 1
  have h5 := neighbour_range input cols i j 1 (-1)
  have h6 := neighbour_range input cols i j 1 1
  omega

theorem Sy_range (input : List uchar) (cols i j : Nat) :
    -1020 ≤ Sy input cols i j ∧ Sy input cols i j ≤ 1020 := by
  unfold Sy
  have h1 := neighbour_range input cols i j (-1) (-1)
  have h2 := neighbour_range input cols i j (-1) 0
  have h3 := neighbour_range input cols i j (-1) 1
  have h4 := neighbour_range input cols i j 1 (-1)
  have h5 := neighbour_range input cols i j 1 0
  have h6 := neighbour_range input cols i j 1 1
  omega

theorem sq_le_of_range (x : Int) (h : -1020 ≤ x ∧ x ≤ 1020) : 0 ≤ x * x ∧ x * x ≤ 1040400 := by
  constructor
  · exact mul_self_nonneg x
  · nlinarith [h.1, h.2]

/-- C20: for every 3x3 neighbourhood of 8-bit samples the sums computed by the
convolution loops satisfy `|sumX| ≤ 1020` and `|sumY| ≤ 1020`, so
`sumX * sumX + sumY * sumY` lies in `0 .. 2080800`, below `2 ^ 31`; the stored
sample is `min(255, magnitude)`, in `0 .. 255`, and the cast to an 8-bit sample
is applied only to a magnitude it leaves unchanged. -/
theorem magnitude_no_overflow (input : List uchar) (cols i j : Nat) :
    |(convolve input cols i j).1| ≤ 1020 ∧ |(convolve input cols i j).2| ≤ 1020 ∧
    0 ≤ (convolve input cols i j).1 * (convolve input cols i j).1
        + (convolve input cols i j).2 * (convolve input cols i j).2 ∧
    (convolve input cols i j).1 * (convolve input cols i j).1
        + (convolve input cols i j).2 * (convolve input cols i j).2 ≤ 2080800 ∧
    (2080800 : Int) < 2 ^ 31 ∧
    (clampToUchar (magnitudeOf (convolve input cols i j).1 (convolve input cols i j).2)).val
      = min 255 (magnitudeOf (convolve input cols i j).1 (convolve input cols i j).2) ∧
    (clampToUchar (magnitudeOf (convolve input cols i j).1 (convolve input cols i j).2)).val
      ≤ 255 ∧
    (magnitudeOf (convolve input cols i j).1 (convolve input cols i j).2 ≤ 255 →
      (Fin.ofNat (magnitudeOf (convolve input cols i j).1 (convolve input cols i j).2) : uchar).val
        = magnitudeOf (convolve input cols i j).1 (convolve input cols i j).2) := by
  rw [convolve_eq]
  dsimp only
  have hx := Sx_range input cols i j
  have hy := Sy_range input cols i j
  have hx2 := sq_le_of_range _ hx
  have hy2 := sq_le_of_range _ hy
  refine ⟨abs_le.2 hx, abs_le.2 hy, by omega, by omega, by norm_num, val_clampToUchar _, ?_, ?_⟩
  · rw [val_clampToUchar]; exact Nat.min_le_left _ _
  · intro h
    show _ % 256 = _
    exact Nat.mod_eq_of_lt (by omega)

theorem magnitude_no_overflow_witness :
    |(convolve sampleBlock 3 1 1).1| ≤ 1020 ∧ |(convolve sampleBlock 3 1 1).2| ≤ 1020 ∧
    0 ≤ (convolve sampleBlock 3 1 1).1 * (convolve sampleBlock 3 1 1).1
        + (convolve sampleBlock 3 1 1).2 * (convolve sampleBlock 3 1 1).2 ∧
    (convolve sampleBlock 3 1 1).1 * (convolve sampleBlock 3 1 1).1
        + (convolve sampleBlock 3 1 1).2 * (convolve sampleBlock 3 1 1).2 ≤ 2080800 ∧
    (2080800 : Int) < 2 ^ 31 ∧
    (clampToUchar (magnitudeOf (convolve sampleBlock 3 1 1).1 (convolve sampleBlock 3 1 1).2)).val
      = min 255 (magnitudeOf (convolve sampleBlock 3 1 1).1 (convolve sampleBlock 3 1 1).2) ∧
    (clampToUchar (magnitudeOf (convolve sampleBlock 3 1 1).1 (convolve sampleBlock 3 1 1).2)).val
      ≤ 255 ∧
    (magnitudeOf (convolve sampleBlock 3 1 1).1 (convolve sampleBlock 3 1 1).2 ≤ 255 →
      (Fin.ofNat (magnitudeOf (convolve sampleBlock 3 1 1).1 (convolve sampleBlock 3 1 1).2) : uchar).val
        = magnitudeOf (convolve sampleBlock 3 1 1).1 (convolve sampleBlock 3 1 1).2) :=
  magnitude_no_overflow sampleBlock 3 1 1

/-! ## Index safety of applySobelKernel -/

theorem foldlM_eq_some {α β : Type} (g : β → α → Option β) (f : β → α → β) (P : β → Prop)
    (l : List α) (h : ∀ b, P b → ∀ a, a ∈ l → g b a = some (f b a) ∧ P (f b a)) :
    ∀ init, P init → l.foldlM g init = some (l.foldl f init) ∧ P (l.foldl f init) := by
  induction l with
  | nil => intro init hP; exact ⟨rfl, hP⟩
  | cons a l ih =>
    intro init hP
    have h1 := h init hP a (List.mem_cons_self a l)
    have h2 := ih (fun b hb x hx => h b hb x (List.mem_cons_of_mem a hx)) (f init a) h1.2
    rw [List.foldlM_cons, h1.1, List.foldl_cons]
    exact h2

theorem readChecked_eq (buffer : List uchar) (idx : Int) (h0 : 0 ≤ idx)
    (h1 : idx < (buffer.length : Int)) : readChecked buffer idx = some (readAt buffer idx) := by
  unfold readChecked readAt
  rw [if_pos ⟨h0, h1⟩, if_pos h0, List.getD_eq_getElem?_getD,
    List.getElem?_eq_getElem (by omega)]
  rfl

theorem readIndex_in_range (rows cols i j : Nat) (k l : Int)
    (hi : 0 < i) (hi2 : i < rows - 1) (hj : 0 < j) (hj2 : j < cols - 1)
    (hk : k ∈ ([-1, 0, 1] : List Int)) (hl : l ∈ ([-1, 0, 1] : List Int)) :
    0 ≤ readIndex cols i j k l ∧ readIndex cols i j k l < (rows : Int) * (cols : Int) := by
  have hk2 : -1 ≤ k ∧ k ≤ 1 := by
    simp only [List.mem_cons, List.mem_singleton, List.not_mem_nil, or_false] at hk
    omega
  have hl2 : -1 ≤ l ∧ l ≤ 1 := by
    simp only [List.mem_cons, List.mem_singleton, List.not_mem_nil, or_false] at hl
    omega
  unfold readIndex
  exact index_bounds rows cols ((i : Int) + k) ((j : Int) + l) (by omega) (by omega) (by omega)
    (by omega)

theorem convolveStepChecked_eq (input : List uchar) (rows cols i j : Nat) (k l : Int)
    (hin : input.length = rows * cols)
    (hi : 0 < i) (hi2 : i < rows - 1) (hj : 0 < j) (hj2 : j < cols - 1)
    (hk : k ∈ ([-1, 0, 1] : List Int)) (hl : l ∈ ([-1, 0, 1] : List Int)) (acc : Int × Int) :
    convolveStepChecked input cols i j k acc l = some (convolveStep input cols i j k acc l) := by
  have hb := readIndex_in_range rows cols i j k l hi hi2 hj hj2 hk hl
  unfold convolveStepChecked convolveStep
  rw [readChecked_eq input _ hb.1 (by rw [hin]; push_cast; exact hb.2)]
  rfl

theorem convolveChecked_eq (input : List uchar) (rows cols i j : Nat)
    (hin : input.length = rows * cols)
    (hi : 0 < i) (hi2 : i < rows - 1) (hj : 0 < j) (hj2 : j < cols - 1) :
    convolveChecked input cols i j = some (convolve input cols i j) := by
  unfold convolveChecked convolve
  refine (foldlM_eq_some _ _ (fun _ => True) _ ?_ (0, 0) trivial).1
  intro acc _ k hk
  refine ⟨?_, trivial⟩
  refine (foldlM_eq_some _ _ (fun _ => True) _ ?_ acc trivial).1
  intro acc2 _ l hl
  exact ⟨convolveStepChecked_eq input rows cols i j k l hin hi hi2 hj hj2 hk hl acc2, trivial⟩

theorem length_sobelStep (input : List uchar) (rows cols i : Nat) (out : List uchar) (j : Nat) :
    (sobelStep input rows cols i out j).length = out.length := by
  rw [sobelStep_eq]
  simp

theorem sobelStepChecked_eq (input out : List uchar) (rows cols i j : Nat)
    (hin : input.length = rows * cols) (hout : out.length = rows * cols)
    (hi : i < rows) (hj : j < cols) :
    sobelStepChecked input rows cols i out j = some (sobelStep input rows cols i out j) := by
  have hw : i * cols + j < out.length := by rw [hout]; exact index_lt hi hj
  unfold sobelStepChecked sobelStep
  by_cases hb : i = 0 ∨ (i : Int) = (rows : Int) - 1 ∨ j = 0 ∨ (j : Int) = (cols : Int) - 1
  · rw [if_pos hb, if_pos hb]
    unfold writeChecked
    rw [if_pos hw]
  · rw [if_neg hb, if_neg hb,
      convolveChecked_eq input rows cols i j hin (by omega) (by omega) (by omega) (by omega)]
    unfold writeChecked
    simp only [Option.some_bind, if_pos hw]

theorem applySobelKernelChecked_eq (input out : List uchar) (rows cols : Nat)
    (hin : input.length = rows * cols) (hout : out.length = rows * cols) :
    applySobelKernelChecked input out rows cols = some (applySobelKernel input out rows cols) := by
  unfold applySobelKernelChecked applySobelKernel
  refine (foldlM_eq_some _ _ (fun o => o.length = rows * cols) _ ?_ out hout).1
  intro o ho i hi
  refine foldlM_eq_some _ _ (fun o => o.length = rows * cols) _ ?_ o ho
  intro o2 ho2 j hj
  exact ⟨sobelStepChecked_eq input o2 rows cols i j hin ho2 (List.mem_range.1 hi)
    (List.mem_range.1 hj), by show (sobelStep input rows cols i o2 j).length = rows * cols
                              rw [length_sobelStep, ho2]⟩

/-- C19: with input and output buffers of `rows * cols` samples, every index
written by `applySobelKernel`, `i * cols + j`, lies in `[0, rows * cols)`, and at
every non-boundary `(i, j)` every index read, `(i + k) * cols + (j + l)` for
`k, l` in `-1 .. 1`, lies in `[0, rows * cols)`; so the run with every access
checked never fails and gives the same buffer as the total embedding. -/
theorem sobel_index_safety (input out : List uchar) (rows cols : Nat)
    (hin : input.length = rows * cols) (hout : out.length = rows * cols) :
    (∀ i j, i < rows → j < cols → i * cols + j < out.length) ∧
    (∀ i j, i < rows → j < cols →
      ¬ (i = 0 ∨ (i : Int) = (rows : Int) - 1 ∨ j = 0 ∨ (j : Int) = (cols : Int) - 1) →
      ∀ k l, k ∈ ([-1, 0, 1] : List Int) → l ∈ ([-1, 0, 1] : List Int) →
        0 ≤ readIndex cols i j k l ∧ readIndex cols i j k l < (input.length : Int)) ∧
    applySobelKernelChecked input out rows cols = some (applySobelKernel input out rows cols) := by
  refine ⟨?_, ?_, applySobelKernelChecked_eq input out rows cols hin hout⟩
  · intro i j hi hj
    rw [hout]; exact index_lt hi hj
  · intro i j hi hj hb k l hk hl
    have h := readIndex_in_range rows cols i j k l (by omega) (by omega) (by omega) (by omega)
      hk hl
    rw [hin]; push_cast
    exact h

theorem sobel_index_safety_witness :
    (∀ i j, i < 3 → j < 3 → i * 3 + j < (List.replicate 9 (0 : uchar)).length) ∧
    (∀ i j : Nat, i < 3 → j < 3 →
      ¬ (i = 0 ∨ (i : Int) = ((3 : Nat) : Int) - 1 ∨ j = 0 ∨ (j : Int) = ((3 : Nat) : Int) - 1) →
      ∀ k l, k ∈ ([-1, 0, 1] : List Int) → l ∈ ([-1, 0, 1] : List Int) →
        0 ≤ readIndex 3 i j k l ∧
        readIndex 3 i j k l < ((([1, 2, 3, 4, 5, 6, 7, 8, 9] : List uchar).length : Nat) : Int)) ∧
    applySobelKernelChecked [1, 2, 3, 4, 5, 6, 7, 8, 9] (List.replicate 9 0) 3 3 =
      some (applySobelKernel [1, 2, 3, 4, 5, 6, 7, 8, 9] (List.replicate 9 0) 3 3) :=
  sobel_index_safety [1, 2, 3, 4, 5, 6, 7, 8, 9] (List.replicate 9 0) 3 3 (by decide) (by decide)

/-! ## Locality of the partitioned gradient -/

theorem readAt_slice (full : List uchar) (d n : Nat) (idx : Int) (h0 : 0 ≤ idx)
    (h1 : idx < (n : Int)) :
    readAt ((full.drop d).take n) idx = readAt full ((d : Int) + idx) := by
  unfold readAt
  rw [if_pos h0, if_pos (by omega), List.getD_eq_getElem?_getD, List.getD_eq_getElem?_getD,
    List.getElem?_take, if_pos (by omega), List.getElem?_drop]
  have : ((d : Int) + idx).toNat = d + idx.toNat := by omega
  rw [this]

theorem neighbour_slice (full : List uchar) (s c C a j : Nat) (di dj : Int)
    (ha : 0 < a) (ha2 : a < c - 1) (hj : 0 < j) (hj2 : j < C - 1)
    (hdi : -1 ≤ di ∧ di ≤ 1) (hdj : -1 ≤ dj ∧ dj ≤ 1) :
    neighbour ((full.drop (s * C)).take (c * C)) C a j di dj =
      neighbour full C (s + a) j di dj := by
  unfold neighbour
  have hb := index_bounds c C ((a : Int) + di) ((j : Int) + dj) (by omega) (by omega)
    (by omega) (by omega)
  rw [readAt_slice full (s * C) (c * C) _ hb.1 (by push_cast; exact hb.2)]
  have e : ((s * C : Nat) : Int) + (((a : Int) + di) * (C : Int) + ((j : Int) + dj)) =
      (((s + a : Nat) : Int) + di) * (C : Int) + ((j : Int) + dj) := by
    push_cast
    ring
  rw [e]

theorem Sx_slice (full : List uchar) (s c C a j : Nat)
    (ha : 0 < a) (ha2 : a < c - 1) (hj : 0 < j) (hj2 : j < C - 1) :
    Sx ((full.drop (s * C)).take (c * C)) C a j = Sx full C (s + a) j := by
  have nb := fun di dj hdi hdj => neighbour_slice full s c C a j di dj ha ha2 hj hj2 hdi hdj
  unfold Sx
  rw [nb (-1) (-1) (by decide) (by decide), nb (-1) 0 (by decide) (by decide),
    nb (-1) 1 (by decide) (by decide), nb 0 (-1) (by decide) (by decide),
    nb 0 0 (by decide) (by decide), nb 0 1 (by decide) (by decide),
    nb 1 (-1) (by decide) (by decide), nb 1 0 (by decide) (by decide),
    nb 1 1 (by decide) (by decide)]

theorem Sy_slice (full : List uchar) (s c C a j : Nat)
    (ha : 0 < a) (ha2 : a < c - 1) (hj : 0 < j) (hj2 : j < C - 1) :
    Sy ((full.drop (s * C)).take (c * C)) C a j = Sy full C (s + a) j := by
  have nb := fun di dj hdi hdj => neighbour_slice full s c C a j di dj ha ha2 hj hj2 hdi hdj
  unfold Sy
  rw [nb (-1) (-1) (by decide) (by decide), nb (-1) 0 (by decide) (by decide),
    nb (-1) 1 (by decide) (by decide), nb 0 (-1) (by decide) (by decide),
    nb 0 0 (by decide) (by decide), nb 0 1 (by decide) (by decide),
    nb 1 (-1) (by decide) (by decide), nb 1 0 (by decide) (by decide),
    nb 1 1 (by decide) (by decide)]

/-- Away from the first and last row of a block, the sample the kernel stores
for the block is the sample it stores for the whole image. -/
theorem sobelPixel_slice (full : List uchar) (R s c C a j : Nat) (hsc : s + c ≤ R)
    (ha : 0 < a) (ha2 : a < c - 1) (hj : j < C) :
    sobelPixel ((full.drop (s * C)).take (c * C)) c C a j = sobelPixel full R C (s + a) j := by
  by_cases hb : j = 0 ∨ j = C - 1
  · rw [sobelPixel_border _ c C a j (by omega) (by omega) hj,
      sobelPixel_border _ R C (s + a) j (by omega) (by omega) hj]
  · rw [sobelPixel_interior _ c C a j ha ha2 (by omega) (by omega),
      sobelPixel_interior _ R C (s + a) j (by omega) (by omega) (by omega) (by omega),
      Sx_slice full s c C a j ha ha2 (by omega) (by omega),
      Sy_slice full s c C a j ha ha2 (by omega) (by omega)]

theorem block_in_image (R N : Nat) (hN : 1 ≤ N) {i : Nat} (hi : i < N) :
    rowStart R N i + rowCount R N i ≤ R := by
  rw [← rowStart_succ]
  have h := rowStart_mono R N (Nat.succ_le_of_lt hi)
  rw [rowStart_size R N hN] at h
  exact h

theorem gathered_inner_row (full out : List uchar) (R C N : Nat) (hN : 1 ≤ N) (hC : 1 ≤ C)
    (hfull : full.length = R * C) (hout : out.length = R * C) {i a j : Nat} (hi : i < N)
    (ha : 0 < a) (ha2 : a < rowCount R N i - 1) (hj : j < C) :
    (gatheredGradient full R C N)[rowStart R N i * C + (a * C + j)]? =
      (applySobelKernel full out R C)[rowStart R N i * C + (a * C + j)]? := by
  have hblk := block_in_image R N hN hi
  have ha3 : a < rowCount R N i := by omega
  rw [gatheredGradient_at full R C N hN hi (index_lt ha3 hj),
    localGradient_at full R C N hC hi ha3 hj, localBuffer_eq full R C N hN hfull hi,
    sobelPixel_slice full R _ _ C a j hblk ha ha2 hj]
  have hidx : rowStart R N i * C + (a * C + j) = (rowStart R N i + a) * C + j := by
    rw [Nat.add_mul, Nat.add_assoc]
  rw [hidx, applySobelKernel_at full out R C hout (by omega : rowStart R N i + a < R) hj]

/-- C18: for every image of `R * C` samples and every `N ≥ 1`, at every pixel
whose row is neither the first nor the last row of the block that owns it, the
gathered partitioned gradient equals what `applySobelKernel` gives on the whole
image as one block; a position where the two runs differ lies in the first or
the last row of a block. Positions are written with the table of `main`. -/
theorem partition_locality (full out : List uchar) (R C N : Nat) (hN : 1 ≤ N) (hC : 1 ≤ C)
    (hfull : full.length = R * C) (hout : out.length = R * C) :
    (∀ i a j, i < N → 0 < a → a < myRows R C N i - 1 → j < C →
      (gatheredGradient full R C N)[(partitionTable R C N).displacements.getD i 0
          + (a * C + j)]? =
        (applySobelKernel full out R C)[(partitionTable R C N).displacements.getD i 0
          + (a * C + j)]?) ∧
    (∀ p, p < R * C →
      (gatheredGradient full R C N)[p]? ≠ (applySobelKernel full out R C)[p]? →
      ∃ i j, i < N ∧ j < C ∧ 1 ≤ myRows R C N i ∧
        (p = (partitionTable R C N).displacements.getD i 0 + j ∨
         p = (partitionTable R C N).displacements.getD i 0
          + ((myRows R C N i - 1) * C + j))) := by
  constructor
  · intro i a j hi ha ha2 hj
    rw [myRows_eq R C N hC hi] at ha2
    rw [displacements_getD R C N hi]
    exact gathered_inner_row full out R C N hN hC hfull hout hi ha ha2 hj
  · intro p hp hne
    have hp2 : p < rowStart R N N * C := by rw [rowStart_size R N hN]; exact hp
    obtain ⟨i, hi, h1, h2⟩ := block_cover R C N p N hp2
    have hq : p - rowStart R N i * C < rowCount R N i * C := by omega
    have hj : (p - rowStart R N i * C) % C < C := Nat.mod_lt _ (by omega)
    have ha : (p - rowStart R N i * C) / C < rowCount R N i := by
      apply Nat.div_lt_of_lt_mul
      rw [Nat.mul_comm C (rowCount R N i)]; exact hq
    have hdm := Nat.div_add_mod (p - rowStart R N i * C) C
    generalize (p - rowStart R N i * C) / C = a at ha hdm
    generalize (p - rowStart R N i * C) % C = j at hj hdm
    rw [Nat.mul_comm] at hdm
    have hpe : p = rowStart R N i * C + (a * C + j) := by omega
    refine ⟨i, j, hi, hj, ?_, ?_⟩
    · rw [myRows_eq R C N hC hi]; omega
    · rw [myRows_eq R C N hC hi, displacements_getD R C N hi]
      rcases Nat.eq_zero_or_pos a with h0 | h0
      · left; rw [hpe, h0, Nat.zero_mul, Nat.zero_add]
      · rcases Nat.lt_or_ge a (rowCount R N i - 1) with h3 | h3
        · exact absurd (hpe ▸ gathered_inner_row full out R C N hN hC hfull hout hi h0 h3 hj) hne
        · right
          have : a = rowCount R N i - 1 := by omega
          rw [hpe, this]

theorem partition_locality_witness :
    (∀ i a j, i < 2 → 0 < a → a < myRows 6 3 2 i - 1 → j < 3 →
      (gatheredGradient (List.replicate 18 9) 6 3 2)[(partitionTable 6 3 2).displacements.getD i 0
          + (a * 3 + j)]? =
        (applySobelKernel (List.replicate 18 9) (List.replicate 18 0) 6 3)[
          (partitionTable 6 3 2).displacements.getD i 0 + (a * 3 + j)]?) ∧
    (∀ p, p < 6 * 3 →
      (gatheredGradient (List.replicate 18 9) 6 3 2)[p]? ≠
        (applySobelKernel (List.replicate 18 9) (List.replicate 18 0) 6 3)[p]? →
      ∃ i j, i < 2 ∧ j < 3 ∧ 1 ≤ myRows 6 3 2 i ∧
        (p = (partitionTable 6 3 2).displacements.getD i 0 + j ∨
         p = (partitionTable 6 3 2).displacements.getD i 0
          + ((myRows 6 3 2 i - 1) * 3 + j))) :=
  partition_locality (List.replicate 18 9) (List.replicate 18 0) 6 3 2 (by decide) (by decide)
    (by decide) (by decide)

/-! ## The three Sobel implementations -/

theorem length_foldl_nested {α : Type} (idx : Nat → Nat → Nat) (F : Nat → Nat → α)
    (inner l : List Nat) :
    ∀ out : List α,
      (l.foldl (fun out i => inner.foldl (fun o j => o.set (idx i j) (F i j)) out) out).length
        = out.length := by
  induction l with
  | nil => intro out; rfl
  | cons a l ih => intro out; simp [List.foldl_cons, ih, length_foldl_set]

theorem interior_row_at {α : Type} (F : Nat → Nat → α) (cols n i a b : Nat) (out : List α)
    (hb1 : 1 ≤ b) (hb2 : b ≤ n) (hn : n + 2 ≤ cols) :
    ((List.range' 1 n).foldl (fun o j => o.set (i * cols + j) (F i j)) out)[a * cols + b]? =
      if a = i ∧ a * cols + b < out.length then some (F i b) else out[a * cols + b]? := by
  have hf : (fun (o : List α) (y : Nat) => o.set (i * cols + (1 + y)) (F i (1 + y))) =
      (fun o y => o.set ((i * cols + 1) + y) ((fun y => F i (1 + y)) y)) := by
    funext o y
    rw [Nat.add_assoc]
  rw [List.range'_eq_map_range, List.foldl_map, hf,
    getElem?_foldl_set_range (fun y => F i (1 + y)) (i * cols + 1) out (a * cols + b) n]
  by_cases hai : a = i
  · subst hai
    by_cases hlen : a * cols + b < out.length
    · rw [if_pos (by omega), if_pos ⟨rfl, hlen⟩]
      have : 1 + (a * cols + b - (a * cols + 1)) = b := by omega
      rw [this]
    · rw [if_neg (by omega), if_neg (by omega)]
  · have hne : ¬ (i * cols + 1 ≤ a * cols + b ∧ a * cols + b < i * cols + 1 + n ∧
        a * cols + b < out.length) := by
      rcases Nat.lt_or_gt_of_ne hai with h | h
      · have h1 : (a + 1) * cols ≤ i * cols := Nat.mul_le_mul_right cols h
        rw [Nat.succ_mul] at h1
        omega
      · have h1 : (i + 1) * cols ≤ a * cols := Nat.mul_le_mul_right cols h
        rw [Nat.succ_mul] at h1
        omega
    rw [if_neg hne, if_neg (by intro h; exact hai h.1)]

theorem interior_rows_at {α : Type} (F : Nat → Nat → α) (cols n a b : Nat) (out : List α)
    (hb1 : 1 ≤ b) (hb2 : b ≤ n) (hn : n + 2 ≤ cols) :
    ∀ m, ((List.range' 1 m).foldl
        (fun out i => (List.range' 1 n).foldl (fun o j => o.set (i * cols + j) (F i j)) out)
        out)[a * cols + b]? =
      if 1 ≤ a ∧ a ≤ m ∧ a * cols + b < out.length then some (F a b)
      else out[a * cols + b]? := by
  intro m
  induction m with
  | zero =>
    rw [if_neg (by omega)]
    rfl
  | succ m ih =>
    rw [List.range'_concat, List.foldl_append]
    simp only [List.foldl_cons, List.foldl_nil, Nat.one_mul]
    rw [interior_row_at F cols n (1 + m) a b _ hb1 hb2 hn, length_foldl_nested, ih]
    by_cases h1 : a = 1 + m
    · by_cases h2 : a * cols + b < out.length
      · rw [if_pos ⟨h1, h2⟩, if_pos (by omega), h1]
      · rw [if_neg (by omega), if_neg (by omega), if_neg (by omega)]
    · rw [if_neg (by omega)]
      by_cases h3 : 1 ≤ a ∧ a ≤ m ∧ a * cols + b < out.length
      · rw [if_pos h3, if_pos (by omega)]
      · rw [if_neg h3, if_neg (by omega)]

theorem convolveMat_eq (rows cols : Nat) (data : List uchar) (i j : Nat) :
    convolveMat { rows := rows, cols := cols, data := data } i j = convolve data cols i j := rfl

theorem applySobelStep_eq (rows cols : Nat) (data : List uchar) (i : Nat) :
    applySobelStep { rows := rows, cols := cols, data := data } i =
      fun o j => o.set (i * cols + j)
        (clampToUchar (magnitudeOf (convolve data cols i j).1 (convolve data cols i j).2)) := by
  funext o j
  unfold applySobelStep clampToUchar
  rw [convolveMat_eq]
  dsimp only
  split <;> rfl

theorem applySobelOMPStep_eq (rows cols : Nat) (data : List uchar) (i : Nat) :
    applySobelOMPStep { rows := rows, cols := cols, data := data } i =
      fun o j => o.set (i * cols + j)
        (clampToUchar (magnitudeOf (convolve data cols i j).1 (convolve data cols i j).2)) := by
  funext o j
  unfold applySobelOMPStep
  rw [convolveMat_eq]

theorem applySobel_interior (rows cols : Nat) (data alloc : List uchar)
    (halloc : alloc.length = rows * cols) {i j : Nat}
    (hi : 0 < i) (hi2 : i < rows - 1) (hj : 0 < j) (hj2 : j < cols - 1) :
    (applySobel { rows := rows, cols := cols, data := data } alloc).data[i * cols + j]? =
      some (sobelPixel data rows cols i j) := by
  unfold applySobel
  simp only [applySobelStep_eq]
  rw [interior_rows_at _ cols (cols - 2) i j alloc (by omega) (by omega) (by omega) (rows - 2),
    if_pos ⟨by omega, by omega, by rw [halloc]; exact index_lt (by omega) (by omega)⟩]
  unfold sobelPixel
  rw [if_neg (by omega)]

theorem applySobelOMP_interior (rows cols : Nat) (data alloc : List uchar)
    (halloc : alloc.length = rows * cols) {i j : Nat}
    (hi : 0 < i) (hi2 : i < rows - 1) (hj : 0 < j) (hj2 : j < cols - 1) :
    (applySobelOMP { rows := rows, cols := cols, data := data } alloc).data[i * cols + j]? =
      some (sobelPixel data rows cols i j) := by
  unfold applySobelOMP
  simp only [applySobelOMPStep_eq]
  rw [interior_rows_at _ cols (cols - 2) i j alloc (by omega) (by omega) (by omega) (rows - 2),
    if_pos ⟨by omega, by omega, by rw [halloc]; exact index_lt (by omega) (by omega)⟩]
  unfold sobelPixel
  rw [if_neg (by omega)]

/-- C16: on a grayscale grid of `rows * cols` samples, at every interior
position `(i, j)` the serial `applySobel`, `applySobelOMP` (iterations run in
loop order) and `applySobelKernel` on the grid as one block store the same
sample, whatever the output buffers held before. -/
theorem sobel_variants_agree (rows cols : Nat) (data allocSerial allocOMP out : List uchar)
    (hs : allocSerial.length = rows * cols) (ho : allocOMP.length = rows * cols)
    (hout : out.length = rows * cols) (i j : Nat)
    (hi : 0 < i) (hi2 : i < rows - 1) (hj : 0 < j) (hj2 : j < cols - 1) :
    ∃ v : uchar,
      (applySobel { rows := rows, cols := cols, data := data } allocSerial).data[i * cols + j]?
        = some v ∧
      (applySobelOMP { rows := rows, cols := cols, data := data } allocOMP).data[i * cols + j]?
        = some v ∧
      (applySobelKernel data out rows cols)[i * cols + j]? = some v :=
  ⟨sobelPixel data rows cols i j, applySobel_interior rows cols data allocSerial hs hi hi2 hj hj2,
    applySobelOMP_interior rows cols data allocOMP ho hi hi2 hj hj2,
    applySobelKernel_at data out rows cols hout (by omega) (by omega)⟩

theorem sobel_variants_agree_witness :
    ∃ v : uchar,
      (applySobel { rows := 3, cols := 3, data := [0, 0, 0, 0, 0, 0, 0, 0, 2] }
        [7, 7, 7, 7, 7, 7, 7, 7, 7]).data[1 * 3 + 1]? = some v ∧
      (applySobelOMP { rows := 3, cols := 3, data := [0, 0, 0, 0, 0, 0, 0, 0, 2] }
        [9, 9, 9, 9, 9, 9, 9, 9, 9]).data[1 * 3 + 1]? = some v ∧
      (applySobelKernel [0, 0, 0, 0, 0, 0, 0, 0, 2] (List.replicate 9 0) 3 3)[1 * 3 + 1]?
        = some v :=
  sobel_variants_agree 3 3 [0, 0, 0, 0, 0, 0, 0, 0, 2] [7, 7, 7, 7, 7, 7, 7, 7, 7]
    [9, 9, 9, 9, 9, 9, 9, 9, 9] (List.replicate 9 0) (by decide) (by decide) (by decide) 1 1
    (by decide) (by decide) (by decide) (by decide)

/-! ## Timeline: the reported durations are maxima -/

theorem mpiReduceMax_fold (contrib : Nat → Rat) :
    ∀ n, (∀ r, r ≤ n →
        contrib r ≤ (List.range' 1 n).foldl (fun acc r => max acc (contrib r)) (contrib 0)) ∧
      (∃ r, r ≤ n ∧
        (List.range' 1 n).foldl (fun acc r => max acc (contrib r)) (contrib 0) = contrib r) := by
  intro n
  induction n with
  | zero =>
    refine ⟨?_, 0, Nat.le_refl _, rfl⟩
    intro r hr
    have : r = 0 := by omega
    subst this
    exact le_refl _
  | succ n ih =>
    obtain ⟨hge, r0, hr0, heq⟩ := ih
    rw [List.range'_concat, List.foldl_append]
    simp only [List.foldl_cons, List.foldl_nil, Nat.one_mul]
    constructor
    · intro r hr
      rcases Nat.lt_or_ge r (n + 1) with h | h
      · exact le_trans (hge r (by omega)) (le_max_left _ _)
      · have : r = 1 + n := by omega
        subst this
        exact le_max_right _ _
    · rcases le_total (contrib (1 + n))
          ((List.range' 1 n).foldl (fun acc r => max acc (contrib r)) (contrib 0)) with h | h
      · exact ⟨r0, by omega, by rw [max_eq_left h, heq]⟩
      · exact ⟨1 + n, by omega, by rw [max_eq_right h]⟩

theorem mpiReduceMax_ge (contrib : Nat → Rat) (size : Nat) {r : Nat} (hr : r < size) :
    contrib r ≤ mpiReduceMax contrib size :=
  (mpiReduceMax_fold contrib (size - 1)).1 r (by omega)

theorem mpiReduceMax_attained (contrib : Nat → Rat) (size : Nat) (hsize : 1 ≤ size) :
    ∃ r, r < size ∧ mpiReduceMax contrib size = contrib r := by
  obtain ⟨r, hr, h⟩ := (mpiReduceMax_fold contrib (size - 1)).2
  exact ⟨r, by omega, h⟩

/-- C14: the compute duration and the postprocess duration at the coordinator
(`max_proc_time`, `max_post_time`) are the maxima over all participants of the
local durations `t_proc_end - t_proc_start` and `t_post_end - t_post_start`: each
is at least every participant's local duration and is the local duration of
some participant; the reported values are these maxima in milliseconds. -/
theorem reported_durations_are_maxima (stamps : Nat → StageStamps) (size : Nat)
    (hsize : 1 ≤ size) :
    (∀ r, r < size →
      (stamps r).t_proc_end - (stamps r).t_proc_start ≤ max_proc_time stamps size) ∧
    (∃ r, r < size ∧
      max_proc_time stamps size = (stamps r).t_proc_end - (stamps r).t_proc_start) ∧
    (∀ r, r < size →
      (stamps r).t_post_end - (stamps r).t_post_start ≤ max_post_time stamps size) ∧
    (∃ r, r < size ∧
      max_post_time stamps size = (stamps r).t_post_end - (stamps r).t_post_start) ∧
    (∀ r, r < size → my_proc_time (stamps r) * 1000 ≤ process_time_ms stamps size) ∧
    (∃ r, r < size ∧ process_time_ms stamps size = my_proc_time (stamps r) * 1000) ∧
    (∀ r, r < size → my_post_time (stamps r) * 1000 ≤ postprocess_time_ms stamps size) ∧
    (∃ r, r < size ∧ postprocess_time_ms stamps size = my_post_time (stamps r) * 1000) := by
  have hk : (0 : Rat) ≤ 1000 := by norm_num
  refine ⟨?_, ?_, ?_, ?_, ?_, ?_, ?_, ?_⟩
  · intro r hr
    exact mpiReduceMax_ge (fun r => my_proc_time (stamps r)) size hr
  · exact mpiReduceMax_attained (fun r => my_proc_time (stamps r)) size hsize
  · intro r hr
    exact mpiReduceMax_ge (fun r => my_post_time (stamps r)) size hr
  · exact mpiReduceMax_attained (fun r => my_post_time (stamps r)) size hsize
  · intro r hr
    exact mul_le_mul_of_nonneg_right
      (mpiReduceMax_ge (fun r => my_proc_time (stamps r)) size hr) hk
  · obtain ⟨r, hr, h⟩ := mpiReduceMax_attained (fun r => my_proc_time (stamps r)) size hsize
    exact ⟨r, hr, by unfold process_time_ms max_proc_time; rw [h]⟩
  · intro r hr
    exact mul_le_mul_of_nonneg_right
      (mpiReduceMax_ge (fun r => my_post_time (stamps r)) size hr) hk
  · obtain ⟨r, hr, h⟩ := mpiReduceMax_attained (fun r => my_post_time (stamps r)) size hsize
    exact ⟨r, hr, by unfold postprocess_time_ms max_post_time; rw [h]⟩

theorem reported_durations_are_maxima_witness :
    (∀ r, r < 3 →
      (sampleStamps r).t_proc_end - (sampleStamps r).t_proc_start ≤ max_proc_time sampleStamps 3) ∧
    (∃ r, r < 3 ∧
      max_proc_time sampleStamps 3 = (sampleStamps r).t_proc_end - (sampleStamps r).t_proc_start) ∧
    (∀ r, r < 3 →
      (sampleStamps r).t_post_end - (sampleStamps r).t_post_start ≤ max_post_time sampleStamps 3) ∧
    (∃ r, r < 3 ∧
      max_post_time sampleStamps 3 = (sampleStamps r).t_post_end - (sampleStamps r).t_post_start) ∧
    (∀ r, r < 3 → my_proc_time (sampleStamps r) * 1000 ≤ process_time_ms sampleStamps 3) ∧
    (∃ r, r < 3 ∧ process_time_ms sampleStamps 3 = my_proc_time (sampleStamps r) * 1000) ∧
    (∀ r, r < 3 → my_post_time (sampleStamps r) * 1000 ≤ postprocess_time_ms sampleStamps 3) ∧
    (∃ r, r < 3 ∧ postprocess_time_ms sampleStamps 3 = my_post_time (sampleStamps r) * 1000) :=
  reported_durations_are_maxima sampleStamps 3 (by decide)

/-! ## Collective operations: every participant issues the same sequence -/

theorem program_collectives (R C r : Nat) :
    (program R C r).filter Action.isCollective =
      [Action.bcastRows, Action.bcastCols, Action.scatterv, Action.barrier, Action.gatherv,
        Action.reduceProc, Action.reducePost] := by
  unfold program commonProgram coordinatorPrologue
  by_cases hr : r = 0
  · by_cases he : imageEmpty R C = true
    · simp only [hr, he, if_true]; decide
    · simp only [hr, he, if_true]; decide
  · simp only [hr, if_false]; decide

theorem program_no_abort (R C r : Nat) (himg : imageEmpty R C = false) :
    Action.abort ∉ program R C r := by
  unfold program commonProgram coordinatorPrologue
  by_cases hr : r = 0
  · simp only [hr, himg, if_true]; decide
  · simp only [hr, if_false]; decide

theorem aligned_initial (R C N : Nat) (hN : 1 ≤ N) (himg : imageEmpty R C = false) :
    CollectivesAligned (initialSystem R C N) := by
  refine ⟨rfl, ?_, ?_, [Action.bcastRows, Action.bcastCols, Action.scatterv, Action.barrier,
    Action.gatherv, Action.reduceProc, Action.reducePost], ?_⟩
  · intro h
    have hl : ((List.range N).map (program R C)).length = 0 := by
      rw [show (List.range N).map (program R C) = [] from h]; rfl
    rw [List.length_map, List.length_range] at hl
    omega
  · intro p hp
    obtain ⟨r, _, rfl⟩ := List.mem_map.1 hp
    exact program_no_abort R C r himg
  · intro p hp
    obtain ⟨r, _, rfl⟩ := List.mem_map.1 hp
    exact program_collectives R C r

theorem filter_of_head {p : List Action} {c : Action} {cs : List Action}
    (hc : c.isCollective = true) (hh : p.head? = some c)
    (hf : p.filter Action.isCollective = cs) :
    p.tail.filter Action.isCollective = cs.tail := by
  cases p with
  | nil => simp at hh
  | cons a rest =>
    simp only [List.head?_cons, Option.some.injEq] at hh
    subst hh
    rw [List.filter_cons_of_pos hc] at hf
    rw [← hf]
    rfl

theorem aligned_step {s s' : System} (h : CollectivesAligned s) (hs : Step s s') :
    CollectivesAligned s' := by
  obtain ⟨hab, hne, hno, cs, hcs⟩ := h
  cases hs with
  | localStep r a rest h1 h2 h3 h4 =>
    have hmem : a :: rest ∈ s.progs := List.mem_iff_getElem?.2 ⟨r, h2⟩
    refine ⟨rfl, ?_, ?_, cs, ?_⟩
    · intro hnil
      have hl := congrArg List.length hnil
      rw [List.length_set] at hl
      exact hne (List.eq_nil_of_length_eq_zero hl)
    · intro p hp
      rcases List.mem_or_eq_of_mem_set hp with h5 | h5
      · exact hno p h5
      · subst h5
        intro hin
        exact hno _ hmem (List.mem_cons_of_mem a hin)
    · intro p hp
      rcases List.mem_or_eq_of_mem_set hp with h5 | h5
      · exact hcs p h5
      · subst h5
        have := hcs _ hmem
        rw [List.filter_cons_of_neg (by simp [h3])] at this
        exact this
  | abortStep r rest h1 h2 =>
    have hmem : Action.abort :: rest ∈ s.progs := List.mem_iff_getElem?.2 ⟨r, h2⟩
    exact absurd (List.mem_cons_self _ _) (hno _ hmem)
  | collectiveStep c h1 h2 h3 h4 =>
    refine ⟨rfl, ?_, ?_, cs.tail, ?_⟩
    · intro hnil
      exact hne (List.map_eq_nil_iff.1 hnil)
    · intro p hp
      obtain ⟨q, hq, rfl⟩ := List.mem_map.1 hp
      intro hin
      exact hno q hq (List.mem_of_mem_tail hin)
    · intro p hp
      obtain ⟨q, hq, rfl⟩ := List.mem_map.1 hp
      exact filter_of_head h3 (h4 q hq) (hcs q hq)

theorem aligned_progress {s : System} (h : CollectivesAligned s) :
    Finished s ∨ ∃ s', Step s s' := by
  obtain ⟨hab, hne, hno, cs, hcs⟩ := h
  by_cases hloc : ∃ p, p ∈ s.progs ∧ ∃ a rest, p = a :: rest ∧ a.isCollective = false
  · obtain ⟨p, hp, a, rest, rfl, ha⟩ := hloc
    obtain ⟨r, hr⟩ := List.getElem?_of_mem hp
    right
    refine ⟨_, Step.localStep s r a rest hab hr ha ?_⟩
    intro h
    subst h
    exact hno _ hp (List.mem_cons_self _ _)
  · have hcoll : ∀ p, p ∈ s.progs → ∀ a rest, p = a :: rest → a.isCollective = true := by
      intro p hp a rest hpe
      by_contra hc
      exact hloc ⟨p, hp, a, rest, hpe, by simpa using hc⟩
    cases cs with
    | nil =>
      left
      refine ⟨hab, ?_⟩
      intro p hp
      cases p with
      | nil => rfl
      | cons a rest =>
        have h1 := hcs _ hp
        rw [List.filter_cons_of_pos (hcoll _ hp a rest rfl)] at h1
        exact absurd h1 (by simp)
    | cons c cs' =>
      right
      have hhead : ∀ p, p ∈ s.progs → p.head? = some c ∧ c.isCollective = true := by
        intro p hp
        cases p with
        | nil =>
          have h1 := hcs _ hp
          simp at h1
        | cons a rest =>
          have ha := hcoll _ hp a rest rfl
          have h1 := hcs _ hp
          rw [List.filter_cons_of_pos ha] at h1
          have hac : a = c := (List.cons.inj h1).1
          subst hac
          exact ⟨rfl, ha⟩
      obtain ⟨p0, hp0⟩ := List.exists_mem_of_ne_nil _ hne
      exact ⟨_, Step.collectiveStep s c hab hne (hhead p0 hp0).2 (fun p hp => (hhead p hp).1)⟩

theorem aligned_reachable (R C N : Nat) (hN : 1 ≤ N) (himg : imageEmpty R C = false)
    {s : System} (hs : Reachable R C N s) : CollectivesAligned s := by
  unfold Reachable at hs
  induction hs with
  | refl => exact aligned_initial R C N hN himg
  | tail _ hstep ih => exact aligned_step ih hstep

theorem sum_length_set (l : List (List Action)) :
    ∀ (r : Nat) (a : Action) (rest : List Action), l[r]? = some (a :: rest) →
      ((l.set r rest).map List.length).sum + 1 = (l.map List.length).sum := by
  induction l with
  | nil => intro r a rest h; simp at h
  | cons p l ih =>
    intro r a rest h
    cases r with
    | zero =>
      simp only [List.getElem?_cons_zero, Option.some.injEq] at h
      subst h
      simp only [List.set_cons_zero, List.map_cons, List.sum_cons, List.length_cons]
      omega
    | succ r =>
      simp only [List.getElem?_cons_succ] at h
      have := ih r a rest h
      simp only [List.set_cons_succ, List.map_cons, List.sum_cons]
      omega

theorem sum_length_tail (c : Action) (l : List (List Action)) :
    (∀ p, p ∈ l → p.head? = some c) →
      ((l.map List.tail).map List.length).sum + l.length = (l.map List.length).sum := by
  induction l with
  | nil => intro _; rfl
  | cons p l ih =>
    intro h
    have hp := h p (List.mem_cons_self _ _)
    have := ih (fun q hq => h q (List.mem_cons_of_mem _ hq))
    cases p with
    | nil => simp at hp
    | cons a rest =>
      simp only [List.map_cons, List.sum_cons, List.length_cons, List.tail_cons]
      omega

theorem remaining_decreases {s s' : System} (hs : Step s s') (hab : s'.aborted = false) :
    remaining s' < remaining s := by
  cases hs with
  | localStep r a rest h1 h2 h3 h4 =>
    have := sum_length_set s.progs r a rest h2
    unfold remaining
    show ((s.progs.set r rest).map List.length).sum < _
    omega
  | abortStep r rest h1 h2 => simp at hab
  | collectiveStep c h1 h2 h3 h4 =>
    have := sum_length_tail c s.progs h4
    have hl : 0 < s.progs.length := List.length_pos.2 h2
    unfold remaining
    show ((s.progs.map List.tail).map List.length).sum < _
    omega

theorem tableAt_eq (R C N r : Nat) : tableAt R C N r = partitionTable R C N := rfl

/-- C15 (as the code has it): when the image loads (`img.empty()` is false), every
participant, whatever its rank, issues the same sequence of collectives (two
broadcasts, scatter, barrier, gather, two reductions) and computes the same
counts/displacements table from the broadcast dimensions, its own count being
the root's `sendCounts[rank]`. In every state a run can reach, the run has not
aborted and either every participant has completed `main` or some step is
possible: no participant is left waiting for a counterpart call; and every step
shortens what is left to do, so every run ends with all participants done. -/
theorem collectives_deadlock_free (R C N : Nat) (hN : 1 ≤ N) (himg : imageEmpty R C = false) :
    (∀ r, (program R C r).filter Action.isCollective =
      [Action.bcastRows, Action.bcastCols, Action.scatterv, Action.barrier, Action.gatherv,
        Action.reduceProc, Action.reducePost]) ∧
    (∀ r, tableAt R C N r = partitionTable R C N) ∧
    (∀ r, r < N → myDataSize (dimsAfterBcast R C r).1 (dimsAfterBcast R C r).2 N r =
      (tableAt R C N 0).sendCounts.getD r 0) ∧
    (∀ s, Reachable R C N s → s.aborted = false ∧ (Finished s ∨ ∃ s', Step s s')) ∧
    (∀ s s', Reachable R C N s → Step s s' → remaining s' < remaining s) := by
  refine ⟨program_collectives R C, tableAt_eq R C N, fun r _ => rfl, ?_, ?_⟩
  · intro s hs
    have h := aligned_reachable R C N hN himg hs
    exact ⟨h.1, aligned_progress h⟩
  · intro s s' hs hstep
    have h := aligned_step (aligned_reachable R C N hN himg hs) hstep
    exact remaining_decreases hstep h.1

theorem collectives_deadlock_free_witness :
    (∀ r, (program 4 3 r).filter Action.isCollective =
      [Action.bcastRows, Action.bcastCols, Action.scatterv, Action.barrier, Action.gatherv,
        Action.reduceProc, Action.reducePost]) ∧
    (∀ r, tableAt 4 3 2 r = partitionTable 4 3 2) ∧
    (∀ r, r < 2 → myDataSize (dimsAfterBcast 4 3 r).1 (dimsAfterBcast 4 3 r).2 2 r =
      (tableAt 4 3 2 0).sendCounts.getD r 0) ∧
    (∀ s, Reachable 4 3 2 s → s.aborted = false ∧ (Finished s ∨ ∃ s', Step s s')) ∧
    (∀ s s', Reachable 4 3 2 s → Step s s' → remaining s' < remaining s) :=
  collectives_deadlock_free 4 3 2 (by decide) (by decide)

/-! ## An image without columns: the run aborts before partitioning -/

theorem imageEmpty_of_no_columns (R C : Nat) (hC : C ≤ 0) : imageEmpty R C = true := by
  have : C = 0 := by omega
  subst this
  simp [imageEmpty]

theorem program_coordinator_empty (R C : Nat) (he : imageEmpty R C = true) :
    program R C 0 =
      Action.loadImage :: Action.abort :: Action.convertToGray :: commonProgram 0 := by
  unfold program coordinatorPrologue
  simp only [he, if_true]
  rfl

theorem program_worker (R C r : Nat) (hr : r ≠ 0) :
    ∃ rest, program R C r = Action.bcastRows :: rest := by
  unfold program commonProgram
  simp only [hr, if_false]
  exact ⟨_, rfl⟩

theorem initial_get (R C N r : Nat) (p : List Action)
    (h : ((List.range N).map (program R C))[r]? = some p) : r < N ∧ p = program R C r := by
  rw [List.getElem?_map] at h
  by_cases hr : r < N
  · rw [List.getElem?_range hr] at h
    exact ⟨hr, (Option.some.inj h).symm⟩
  · rw [List.getElem?_eq_none_iff.2 (by simpa using hr)] at h
    simp at h

theorem afterLoad_get_zero (R C N : Nat) (hN : 1 ≤ N) :
    (afterLoad R C N)[0]? = some (Action.abort :: Action.convertToGray :: commonProgram 0) := by
  unfold afterLoad
  rw [List.getElem?_set]
  simp
  omega

theorem afterLoad_get_succ (R C N r : Nat) (p : List Action) (hr : r ≠ 0)
    (h : (afterLoad R C N)[r]? = some p) : r < N ∧ p = program R C r := by
  unfold afterLoad at h
  rw [List.getElem?_set, if_neg (fun h0 => hr h0.symm)] at h
  exact initial_get R C N r p h

theorem aborting_step (R C N : Nat) (hN : 1 ≤ N) (he : imageEmpty R C = true)
    {s s' : System} (h : AbortingRun R C N s) (hs : Step s s') : AbortingRun R C N s' := by
  have h0N : 0 < N := hN
  have hinit0 : ((List.range N).map (program R C))[0]? = some (program R C 0) := by
    rw [List.getElem?_map, List.getElem?_range h0N]; rfl
  rcases h with ⟨hp, hl, ha⟩ | ⟨hp, hl, ha⟩ | ⟨hp, hl, ha⟩
  · cases hs with
    | localStep r a rest h1 h2 h3 h4 =>
      rw [hp] at h2
      obtain ⟨hr, hpr⟩ := initial_get R C N r _ h2
      by_cases hr0 : r = 0
      · subst hr0
        rw [program_coordinator_empty R C he] at hpr
        obtain ⟨ha1, hrest⟩ := List.cons.inj hpr
        right; left
        refine ⟨?_, ?_, rfl⟩
        · show s.progs.set 0 rest = afterLoad R C N
          rw [hp, hrest]; rfl
        · show s.log ++ [(0, a)] = _
          rw [hl, ha1]; rfl
      · obtain ⟨rest', hw⟩ := program_worker R C r hr0
        rw [hw] at hpr
        rw [(List.cons.inj hpr).1] at h3
        exact absurd h3 (by decide)
    | abortStep r rest h1 h2 =>
      rw [hp] at h2
      obtain ⟨hr, hpr⟩ := initial_get R C N r _ h2
      by_cases hr0 : r = 0
      · subst hr0
        rw [program_coordinator_empty R C he] at hpr
        exact absurd (List.cons.inj hpr).1 (by decide)
      · obtain ⟨rest', hw⟩ := program_worker R C r hr0
        rw [hw] at hpr
        exact absurd (List.cons.inj hpr).1 (by decide)
    | collectiveStep c h1 h2 h3 h4 =>
      have hmem : program R C 0 ∈ s.progs := by
        rw [hp]; exact List.mem_iff_getElem?.2 ⟨0, hinit0⟩
      have hh := h4 _ hmem
      rw [program_coordinator_empty R C he] at hh
      simp only [List.head?_cons, Option.some.injEq] at hh
      rw [← hh] at h3
      exact absurd h3 (by decide)
  · cases hs with
    | localStep r a rest h1 h2 h3 h4 =>
      rw [hp] at h2
      by_cases hr0 : r = 0
      · subst hr0
        rw [afterLoad_get_zero R C N hN] at h2
        exact absurd (List.cons.inj (Option.some.inj h2)).1.symm h4
      · obtain ⟨hr, hpr⟩ := afterLoad_get_succ R C N r _ hr0 h2
        obtain ⟨rest', hw⟩ := program_worker R C r hr0
        rw [hw] at hpr
        rw [(List.cons.inj hpr).1] at h3
        exact absurd h3 (by decide)
    | abortStep r rest h1 h2 =>
      rw [hp] at h2
      by_cases hr0 : r = 0
      · subst hr0
        right; right
        refine ⟨hp, ?_, rfl⟩
        show s.log ++ [(0, Action.abort)] = _
        rw [hl]; rfl
      · obtain ⟨hr, hpr⟩ := afterLoad_get_succ R C N r _ hr0 h2
        obtain ⟨rest', hw⟩ := program_worker R C r hr0
        rw [hw] at hpr
        exact absurd (List.cons.inj hpr).1 (by decide)
    | collectiveStep c h1 h2 h3 h4 =>
      have hmem : (Action.abort :: Action.convertToGray :: commonProgram 0) ∈ s.progs := by
        rw [hp]; exact List.mem_iff_getElem?.2 ⟨0, afterLoad_get_zero R C N hN⟩
      have hh := h4 _ hmem
      simp only [List.head?_cons, Option.some.injEq] at hh
      rw [← hh] at h3
      exact absurd h3 (by decide)
  · cases hs with
    | localStep r a rest h1 h2 h3 h4 => rw [ha] at h1; exact absurd h1 (by decide)
    | abortStep r rest h1 h2 => rw [ha] at h1; exact absurd h1 (by decide)
    | collectiveStep c h1 h2 h3 h4 => rw [ha] at h1; exact absurd h1 (by decide)

theorem aborting_reachable (R C N : Nat) (hN : 1 ≤ N) (he : imageEmpty R C = true)
    {s : System} (hs : Reachable R C N s) : AbortingRun R C N s := by
  unfold Reachable at hs
  induction hs with
  | refl => exact Or.inl ⟨rfl, rfl, rfl⟩
  | tail _ hstep ih => exact aborting_step R C N hN he ih hstep

theorem aborting_progress (R C N : Nat) (hN : 1 ≤ N) (he : imageEmpty R C = true)
    {s : System} (h : AbortingRun R C N s) :
    ¬ Finished s ∧ (s.aborted = true ∨ ∃ s', Step s s') := by
  have h0N : 0 < N := hN
  have hinit0 : ((List.range N).map (program R C))[0]? = some (program R C 0) := by
    rw [List.getElem?_map, List.getElem?_range h0N]; rfl
  rcases h with ⟨hp, hl, ha⟩ | ⟨hp, hl, ha⟩ | ⟨hp, hl, ha⟩
  · have hget : s.progs[0]? =
        some (Action.loadImage :: Action.abort :: Action.convertToGray :: commonProgram 0) := by
      rw [hp, hinit0, program_coordinator_empty R C he]
    constructor
    · intro hf
      have := hf.2 _ (List.mem_iff_getElem?.2 ⟨0, hget⟩)
      exact absurd this (by simp)
    · right
      exact ⟨_, Step.localStep s 0 Action.loadImage _ ha hget (by decide) (by decide)⟩
  · have hget : s.progs[0]? = some (Action.abort :: Action.convertToGray :: commonProgram 0) := by
      rw [hp]; exact afterLoad_get_zero R C N hN
    constructor
    · intro hf
      have := hf.2 _ (List.mem_iff_getElem?.2 ⟨0, hget⟩)
      exact absurd this (by simp)
    · right
      exact ⟨_, Step.abortStep s 0 _ ha hget⟩
  · constructor
    · intro hf
      rw [hf.1] at ha
      exact absurd ha (by decide)
    · left; exact ha

theorem aborting_log (R C N : Nat) {s : System} (h : AbortingRun R C N s) (r : Nat) :
    (r, Action.computeTable) ∉ s.log ∧ (r, Action.divideRows) ∉ s.log ∧
      (r, Action.bcastRows) ∉ s.log := by
  rcases h with ⟨_, hl, _⟩ | ⟨_, hl, _⟩ | ⟨_, hl, _⟩ <;>
  · rw [hl]
    simp

/-- C11: when the loaded image has `imgCols ≤ 0` it has no elements, so
`img.empty()` holds, and in every state a run can reach no participant has
computed the partition table or evaluated `sendCounts[rank] / imgCols` (nor
taken part in a broadcast); the only steps ever taken are the coordinator's
load and its `MPI_Abort`, the run never completes `main`, and as long as it has
not aborted a step towards the abort is possible. -/
theorem empty_columns_abort (R C N : Nat) (hN : 1 ≤ N) (hC : C ≤ 0) :
    imageEmpty R C = true ∧
    ∀ s, Reachable R C N s →
      (∀ r, (r, Action.computeTable) ∉ s.log ∧ (r, Action.divideRows) ∉ s.log ∧
        (r, Action.bcastRows) ∉ s.log) ∧
      (s.log = [] ∨ s.log = [(0, Action.loadImage)] ∨
        (s.log = [(0, Action.loadImage), (0, Action.abort)] ∧ s.aborted = true)) ∧
      ¬ Finished s ∧ (s.aborted = true ∨ ∃ s', Step s s') ∧
      (s.aborted = true → ∀ s', ¬ Step s s') := by
  have he := imageEmpty_of_no_columns R C hC
  refine ⟨he, ?_⟩
  intro s hs
  have h := aborting_reachable R C N hN he hs
  have hp := aborting_progress R C N hN he h
  refine ⟨aborting_log R C N h, ?_, hp.1, hp.2, ?_⟩
  · rcases h with ⟨_, hl, _⟩ | ⟨_, hl, _⟩ | ⟨_, hl, ha⟩
    · exact Or.inl hl
    · exact Or.inr (Or.inl hl)
    · exact Or.inr (Or.inr ⟨hl, ha⟩)
  · intro ha s' hstep
    cases hstep with
    | localStep r a rest h1 h2 h3 h4 => rw [ha] at h1; exact absurd h1 (by decide)
    | abortStep r rest h1 h2 => rw [ha] at h1; exact absurd h1 (by decide)
    | collectiveStep c h1 h2 h3 h4 => rw [ha] at h1; exact absurd h1 (by decide)

theorem empty_columns_abort_witness :
    imageEmpty 5 0 = true ∧
    ∀ s, Reachable 5 0 3 s →
      (∀ r, (r, Action.computeTable) ∉ s.log ∧ (r, Action.divideRows) ∉ s.log ∧
        (r, Action.bcastRows) ∉ s.log) ∧
      (s.log = [] ∨ s.log = [(0, Action.loadImage)] ∨
        (s.log = [(0, Action.loadImage), (0, Action.abort)] ∧ s.aborted = true)) ∧
      ¬ Finished s ∧ (s.aborted = true ∨ ∃ s', Step s s') ∧
      (s.aborted = true → ∀ s', ¬ Step s s') :=
  empty_columns_abort 5 0 3 (by decide) (by decide)

/-! ## A failed load: the workers wait at a broadcast the coordinator never issues -/

/-- On an image without elements the run reaches the state in which the
coordinator has loaded and called `MPI_Abort`, every other participant still
having all of its program ahead. -/
theorem failed_load_reachable (R C N : Nat) (hN : 1 ≤ N) (he : imageEmpty R C = true) :
    Reachable R C N
      { progs := afterLoad R C N
        log := [(0, Action.loadImage), (0, Action.abort)]
        aborted := true } := by
  have h0 : (initialSystem R C N).progs[0]? =
      some (Action.loadImage :: Action.abort :: Action.convertToGray :: commonProgram 0) := by
    show ((List.range N).map (program R C))[0]? = _
    rw [List.getElem?_map, List.getElem?_range hN, Option.map_some',
      program_coordinator_empty R C he]
  have step1 : Step (initialSystem R C N)
      { progs := afterLoad R C N, log := [(0, Action.loadImage)], aborted := false } :=
    Step.localStep (initialSystem R C N) 0 Action.loadImage
      (Action.abort :: Action.convertToGray :: commonProgram 0) rfl h0 (by decide) (by decide)
  have step2 : Step
      { progs := afterLoad R C N, log := [(0, Action.loadImage)], aborted := false }
      { progs := afterLoad R C N, log := [(0, Action.loadImage), (0, Action.abort)],
        aborted := true } :=
    Step.abortStep
      { progs := afterLoad R C N, log := [(0, Action.loadImage)], aborted := false } 0
      (Action.convertToGray :: commonProgram 0) rfl (afterLoad_get_zero R C N hN)
  exact Relation.ReflTransGen.tail (Relation.ReflTransGen.tail Relation.ReflTransGen.refl step1)
    step2

theorem no_step_when_aborted (s s' : System) (ha : s.aborted = true) : ¬ Step s s' := by
  intro hstep
  cases hstep with
  | localStep r a rest h1 h2 h3 h4 => rw [ha] at h1; exact absurd h1 (by decide)
  | abortStep r rest h1 h2 => rw [ha] at h1; exact absurd h1 (by decide)
  | collectiveStep c h1 h2 h3 h4 => rw [ha] at h1; exact absurd h1 (by decide)

/-- C15 fails as stated: with two participants and an image that does not load
(`imread` gives a matrix of 0 x 0 pixels, `img.empty()` holds), the run reaches a
state in which the coordinator has called `MPI_Abort` and participant 1 still
has the first broadcast as its next step; no participant ever takes a broadcast,
the state is not a completed run and admits no further step. So it is not true
of every run that each reachable state is unaborted and finished or able to
step: participant 1 waits for a counterpart call the coordinator never makes. -/
theorem failed_load_counterexample :
    imageEmpty 0 0 = true ∧
    Reachable 0 0 2
      { progs := afterLoad 0 0 2
        log := [(0, Action.loadImage), (0, Action.abort)]
        aborted := true } ∧
    (afterLoad 0 0 2)[1]? = some (commonProgram 1) ∧
    (commonProgram 1).head? = some Action.bcastRows ∧
    (∀ t, Reachable 0 0 2 t → ∀ r, (r, Action.bcastRows) ∉ t.log) ∧
    ¬ Finished
      { progs := afterLoad 0 0 2
        log := [(0, Action.loadImage), (0, Action.abort)]
        aborted := true } ∧
    (∀ s', ¬ Step
      { progs := afterLoad 0 0 2
        log := [(0, Action.loadImage), (0, Action.abort)]
        aborted := true } s') ∧
    ¬ (∀ s, Reachable 0 0 2 s → s.aborted = false ∧ (Finished s ∨ ∃ s', Step s s')) := by
  have hr := failed_load_reachable 0 0 2 (by decide) (by decide)
  refine ⟨by decide, hr, by decide, by decide, ?_, ?_, ?_, ?_⟩
  · intro t ht r
    exact (aborting_log 0 0 2 (aborting_reachable 0 0 2 (by decide) (by decide) ht) r).2.2
  · intro hf
    exact absurd hf.1 (by decide)
  · intro s'
    exact no_step_when_aborted _ s' rfl
  · intro hall
    exact absurd (hall _ hr).1 (by decide)

end MpiPipeline
